import Mathlib

/-!
DXBallBoardUnlocker: a shallow embedding of `src/Main.cpp`

The program reads a DX-Ball board set (`.bdz`), removes the layered XOR
obfuscation when the native magic is absent (`decryptBoardSet`), optionally
splices out the password, and re-stamps the trailing checksum
(`calculateChecksum`).

Modelling conventions.

* `uint8_t` is `Fin 256`; a `std::vector<uint8_t>` is a `List Byte`.
* `uint32_t` values are natural numbers below `2 ^ 32`; every C++ conversion
  to `uint32_t` is an explicit `% 2 ^ 32`.
* `size_t` cursors are natural numbers.  A decrement of a zero cursor wraps to
  `SIZE_MAX` in C++ and the following subscript is then outside every vector;
  the model reports it as `Fault.outOfRange`.
* Undefined behaviour of the C++ program (subscript outside the vector,
  remainder by zero) is made observable as a `Fault`, so that a result
  `Except.ok` certifies that no such step was taken.
* `*reinterpret_cast<uint32_t*>(&v[i])` is a little-endian load of the four
  bytes `v[i] .. v[i+3]` (the program targets little-endian x86).
* A `std::string` file name is the list of its characters.
-/

set_option maxRecDepth 100000

namespace DXBall

/-- The `uint8_t` alias of the source (`using Byte = uint8_t`). -/
abbrev Byte := Fin 256

/-- The `std::vector<Byte>` alias of the source. -/
abbrev ByteVector := List Byte

/-- Ways in which a run of the program stops without producing a buffer. -/
inductive Fault where
  /-- The `std::runtime_error` thrown by `decryptBoardSet`:
  "Decrypted file size does not match. File is invalid." -/
  | structuralMismatch
  /-- A subscript or iterator range outside the vector (undefined behaviour). -/
  | outOfRange
  /-- The remainder `k % xorKeySize` with `xorKeySize == 0` (undefined behaviour). -/
  | divideByZero
  /-- The orchestrator exits with "The provided file is not a valid board set." -/
  | notBoardSet
  /-- The orchestrator exits with "Invalid board set version." -/
  | invalidVersion
  deriving DecidableEq, Repr

/-- The constant `fileSizeXorKey` of `decryptBoardSet`. -/
def fileSizeXorKey : Nat := 0xABBAFAD5

/-- The constant `seed` of `calculateChecksum`. -/
def seed : Nat := 0x5E04A58C

/-- The constant `fileMagic` of `main`. -/
def fileMagic : Nat := 0x54534442

/-- The constant `versionNumberOffset` of `main`. -/
def versionNumberOffset : Nat := 0x4

/-- The constant `passwordSizeOffset` of `main`. -/
def passwordSizeOffset : Nat := 0x14

/-- Bounds-observing subscript `v[i]`. -/
def getByte (v : ByteVector) (i : Nat) : Except Fault Byte :=
  match v.get? i with
  | some b => .ok b
  | none => .error .outOfRange

/-- The pre-decrement `--n` of a `size_t` that is used as a subscript next:
at zero it wraps to `SIZE_MAX`, which is outside every vector. -/
def decr (n : Nat) : Except Fault Nat :=
  if n = 0 then .error .outOfRange else .ok (n - 1)

/-- The four bytes of a 32-bit value, least significant first. -/
def le32 (x : Nat) : ByteVector :=
  [Fin.ofNat (x % 256), Fin.ofNat (x / 256 % 256),
   Fin.ofNat (x / 65536 % 256), Fin.ofNat (x / 16777216 % 256)]

/-- The load `*reinterpret_cast<uint32_t*>(&v[off])`. -/
def readU32 (v : ByteVector) (off : Nat) : Except Fault Nat :=
  match v.drop off with
  | b0 :: b1 :: b2 :: b3 :: _ =>
      .ok (b0.val + 256 * b1.val + 65536 * b2.val + 16777216 * b3.val)
  | _ => .error .outOfRange

/-- The store `*reinterpret_cast<uint32_t*>(&v[off]) = x` on a vector that
holds the four bytes. -/
def writeU32 (v : ByteVector) (off : Nat) (x : Nat) : ByteVector :=
  v.take off ++ le32 x ++ v.drop (off + 4)

/-! ## `calculateChecksum` -/

/-- The loop of `calculateChecksum`: `rest` is the range from `it` to `end`,
`i` is `it - begin`. -/
def checksumLoop : ByteVector → Nat → Nat → Nat
  | [], _, result => result
  | b :: rest, i, result =>
      checksumLoop rest (i + 1)
        (((i % 2 ^ 32) ^^^ b.val) ^^^
          (((result &&& 0x80000000) >>> 31) ||| ((result <<< 1) % 2 ^ 32)))

/-- The function `calculateChecksum(begin, end)` on the bytes of the range. -/
def calculateChecksum (range : ByteVector) : Nat :=
  checksumLoop range 0 ((range.length % 2 ^ 32) ^^^ seed)

/-! ## `decryptBoardSet` -/

/-- The key-reading loop
`for (j = 0; j < xorKeySize; ++j) xorKey[xorKeySize - 1 - j] = outBuffer[--outBufferSize];`
with `n` iterations left. -/
def readKeyLoop (outBuffer : ByteVector) (xorKeySize : Nat) :
    Nat → Nat → ByteVector → Nat → Except Fault (ByteVector × Nat)
  | 0, _, xorKey, outBufferSize => .ok (xorKey, outBufferSize)
  | n + 1, j, xorKey, outBufferSize => do
      let outBufferSize ← decr outBufferSize
      let b ← getByte outBuffer outBufferSize
      readKeyLoop outBuffer xorKeySize n (j + 1) (xorKey.set (xorKeySize - 1 - j) b)
        outBufferSize

/-- The decrypting loop
`for (k = 0; k < outBufferSize; ++k) outBuffer[k] ^= xorKey[k % xorKeySize];`
with `n` iterations left. -/
def xorLoop (xorKey : ByteVector) (xorKeySize : Nat) :
    Nat → Nat → ByteVector → Except Fault ByteVector
  | 0, _, outBuffer => .ok outBuffer
  | n + 1, k, outBuffer => do
      if xorKeySize = 0 then throw Fault.divideByZero
      let kb ← getByte xorKey (k % xorKeySize)
      let ob ← getByte outBuffer k
      xorLoop xorKey xorKeySize n (k + 1) (outBuffer.set k (ob ^^^ kb))

/-- One iteration of the layer loop of `decryptBoardSet`. -/
def peelLayer (outBuffer : ByteVector) (outBufferSize : Nat) :
    Except Fault (ByteVector × Nat) := do
  let outBufferSize ← decr outBufferSize
  let sizeByte ← getByte outBuffer outBufferSize
  let xorKeySize := sizeByte.val &&& 0xF
  let (xorKey, outBufferSize) ←
    readKeyLoop outBuffer xorKeySize xorKeySize 0 (List.replicate xorKeySize 0) outBufferSize
  let outBuffer ← xorLoop xorKey xorKeySize outBufferSize 0 outBuffer
  pure (outBuffer, outBufferSize)

/-- The layer loop `for (i = 0; i < numEncryptionLayers; ++i)` with `n`
iterations left. -/
def layerLoop : Nat → ByteVector → Nat → Except Fault (ByteVector × Nat)
  | 0, outBuffer, outBufferSize => .ok (outBuffer, outBufferSize)
  | n + 1, outBuffer, outBufferSize => do
      let (outBuffer, outBufferSize) ← peelLayer outBuffer outBufferSize
      layerLoop n outBuffer outBufferSize

/-- The function `decryptBoardSet`. -/
def decryptBoardSet (inBuffer : ByteVector) : Except Fault ByteVector := do
  let raw ← readU32 inBuffer 0
  let fileSize := raw ^^^ fileSizeXorKey
  if fileSize ≠ inBuffer.length % 2 ^ 32 then throw Fault.structuralMismatch
  let outBuffer := inBuffer.drop 4
  let outBufferSize := outBuffer.length
  let lastIndex ← decr outBufferSize
  let lastByte ← getByte outBuffer lastIndex
  let numEncryptionLayers := lastByte.val &&& 0xF
  let (outBuffer, outBufferSize) ← layerLoop numEncryptionLayers outBuffer outBufferSize
  pure (outBuffer.take outBufferSize)

/-! ## The orchestrator (`main`, lines 46 to 127) -/

/-- The password block of `main` (lines 84 to 111); `input` is the line read
from standard input after the prompt. -/
def passwordStep (input : String) (boardSetBuffer : ByteVector) :
    Except Fault ByteVector := do
  let passwordSize ← readU32 boardSetBuffer passwordSizeOffset
  if passwordSize > 0 then
    -- outputHexBytes(passwordBegin, passwordBegin + passwordSize)
    if passwordSizeOffset + 4 + passwordSize > boardSetBuffer.length then
      throw Fault.outOfRange
    if input == "y" then
      let zeroed := writeU32 boardSetBuffer passwordSizeOffset 0
      pure (zeroed.take (passwordSizeOffset + 4)
        ++ zeroed.drop (passwordSizeOffset + 4 + passwordSize))
    else
      pure boardSetBuffer
  else
    pure boardSetBuffer

/-- The checksum block of `main` (lines 113 to 126). -/
def restampChecksum (boardSetBuffer : ByteVector) : Except Fault ByteVector := do
  if boardSetBuffer.length < 4 then throw Fault.outOfRange
  let checksumOffset := boardSetBuffer.length - 4
  let checksum ← readU32 boardSetBuffer checksumOffset
  let newChecksum := calculateChecksum (boardSetBuffer.take checksumOffset)
  if newChecksum ≠ checksum then
    pure (writeU32 boardSetBuffer checksumOffset newChecksum)
  else
    pure boardSetBuffer

/-- Lines 71 to 127 of `main`: the version check and the version 6/7 block, on a
buffer whose magic has been accepted. -/
def processBoardSet (input : String) (boardSetBuffer : ByteVector) :
    Except Fault ByteVector := do
  let version ← readU32 boardSetBuffer versionNumberOffset
  if version > 7 then throw Fault.invalidVersion
  if version ≥ 6 then
    let unlocked ← passwordStep input boardSetBuffer
    restampChecksum unlocked
  else
    pure boardSetBuffer

/-- Lines 46 to 127 of `main`: from the buffer read from the input file to the
buffer written to the output file. -/
def unlockBoardSet (input : String) (boardSetBuffer : ByteVector) :
    Except Fault ByteVector := do
  let magic ← readU32 boardSetBuffer 0
  if magic ≠ fileMagic then
    let decrypted ← decryptBoardSet boardSetBuffer
    let magic ← readU32 decrypted 0
    if magic ≠ fileMagic then throw Fault.notBoardSet
    processBoardSet input decrypted
  else
    processBoardSet input boardSetBuffer

/-! ## Auxiliary definitions: the rotation, the reference checksum, the encoder -/

/-- The rotation expression of `calculateChecksum`,
`((result & 0x80000000) >> 31) | (result << 1)` in 32-bit arithmetic. -/
def rotExpr (result : Nat) : Nat :=
  ((result &&& 0x80000000) >>> 31) ||| ((result <<< 1) % 2 ^ 32)

/-- The 32-bit left rotation by one bit, `(x << 1) | (x >> 31)` on a 32-bit word. -/
def rotl32 (x : Nat) : Nat := ((x <<< 1) ||| (x >>> 31)) % 2 ^ 32

/-- The reference definition of the checksum, following the specification's
words: start with `n XOR 0x5E04A58C` (`n` taken mod `2 ^ 32`), then for
`i = 0 .. n-1` in order set `result = i XOR R[i] XOR rotl32 result`; `result`
is a 32-bit word, so every assignment keeps the low 32 bits. -/
def checksumReference (R : ByteVector) : Nat :=
  (List.range R.length).foldl
    (fun result i => ((i ^^^ (R.getD i 0).val) ^^^ rotl32 result) % 2 ^ 32)
    ((R.length % 2 ^ 32) ^^^ 0x5E04A58C)

/-- The range obtained from `R` by exchanging the bytes at positions `i` and `j`. -/
def swapBytes (R : ByteVector) (i j : Nat) : ByteVector :=
  (R.set i (R.getD j 0)).set j (R.getD i 0)

/-- The byte `b` with bit `k` inverted. -/
def flipBit (b : Byte) (k : Nat) : Byte := Fin.ofNat (b.val ^^^ (1 <<< k))

/-- Equality of outcomes is decidable, so that concrete runs can be evaluated. -/
instance instDecidableEqExcept {ε α : Type} [DecidableEq ε] [DecidableEq α] :
    DecidableEq (Except ε α)
  | .ok a, .ok b =>
      if h : a = b then isTrue (by rw [h]) else isFalse (fun h2 => h (Except.ok.inj h2))
  | .error a, .error b =>
      if h : a = b then isTrue (by rw [h]) else isFalse (fun h2 => h (Except.error.inj h2))
  | .ok _, .error _ => isFalse (fun h => by cases h)
  | .error _, .ok _ => isFalse (fun h => by cases h)

/-- A 28-byte native board set: magic `BDST`, version 6, twelve filler bytes, an
empty password and a stale checksum field. -/
def exampleOpen : ByteVector :=
  [0x42, 0x44, 0x53, 0x54, 6, 0, 0, 0, 1, 2, 3, 4, 5, 6, 7, 8, 9, 10, 11, 12,
   0, 0, 0, 0, 0xAA, 0xBB, 0xCC, 0xDD]

/-- A 31-byte native board set: magic `BDST`, version 7, twelve filler bytes, the
3-byte password `61 62 63` and a stale checksum field. -/
def exampleLocked : ByteVector :=
  [0x42, 0x44, 0x53, 0x54, 7, 0, 0, 0, 1, 2, 3, 4, 5, 6, 7, 8, 9, 10, 11, 12,
   3, 0, 0, 0, 0x61, 0x62, 0x63, 0xAA, 0xBB, 0xCC, 0xDD]

/-- Every layer that the loop is about to peel declares a key size `s` with
`1 <= s` and `s + 1 <= cursor`: its key-size byte and its `s` key bytes lie
below the cursor.  The condition is asked of each of the `n` layers in turn, on
the buffer and cursor left by the layers peeled before it; nothing is asked
after a peel that stops with a fault. -/
def layersFit : Nat → ByteVector → Nat → Bool
  | 0, _, _ => true
  | n + 1, outBuffer, outBufferSize =>
      decide (1 ≤ ((outBuffer.getD (outBufferSize - 1) 0).val &&& 0xF)) &&
      decide (((outBuffer.getD (outBufferSize - 1) 0).val &&& 0xF) + 1 ≤ outBufferSize) &&
      match peelLayer outBuffer outBufferSize with
      | .ok (outBuffer, outBufferSize) => layersFit n outBuffer outBufferSize
      | .error _ => true

/-- One XOR layer: its key and the byte stored after the key, whose low nibble
is the key size. -/
structure Layer where
  key : ByteVector
  sizeByte : Byte

/-- A layer with a key of 1 to 15 bytes whose size byte carries the key size in
its low nibble. -/
def Layer.wellFormed (l : Layer) : Prop :=
  1 ≤ l.key.length ∧ l.key.length ≤ 15 ∧ l.sizeByte.val % 16 = l.key.length

/-- Well-formedness of a layer is decidable. -/
instance instDecidableWellFormed (l : Layer) : Decidable l.wellFormed :=
  inferInstanceAs
    (Decidable (1 ≤ l.key.length ∧ l.key.length ≤ 15 ∧ l.sizeByte.val % 16 = l.key.length))

/-- The buffer XORed with the key cycled from index 0. -/
def xorWithKey (key buf : ByteVector) : ByteVector :=
  (List.range buf.length).map (fun k => buf.getD k 0 ^^^ key.getD (k % key.length) 0)

/-- One encoding step: XOR the buffer with the key, append the key bytes and the
size byte. -/
def applyLayer (buf : ByteVector) (l : Layer) : ByteVector :=
  xorWithKey l.key buf ++ l.key ++ [l.sizeByte]

/-- The layers applied in order to the plaintext. -/
def encodeLayers (P : ByteVector) (layers : List Layer) : ByteVector :=
  layers.foldl applyLayer P

/-- The encoder as claim C1 words it: the layers in order, then a trailer byte
holding the total layer count, the whole prefixed by the 4-byte little-endian
value of the total length XOR `0xABBAFAD5`. -/
def encodeWithTrailer (P : ByteVector) (layers : List Layer) : ByteVector :=
  le32 (((encodeLayers P layers).length + 5) ^^^ 0xABBAFAD5)
    ++ encodeLayers P layers ++ [Fin.ofNat layers.length]

/-- The encoder that inverts the decoder's steps: the layers in order, the size
byte of the last layer being the last byte of the buffer, the whole prefixed by
the 4-byte little-endian value of the total length XOR `0xABBAFAD5`. -/
def encodeBoardSet (P : ByteVector) (layers : List Layer) : ByteVector :=
  le32 (((encodeLayers P layers).length + 4) ^^^ 0xABBAFAD5) ++ encodeLayers P layers

/-- The value of the local `numEncryptionLayers` of `decryptBoardSet`: the low
nibble of the last byte of the working buffer. -/
def numEncryptionLayers (outBuffer : ByteVector) : Nat :=
  (outBuffer.getD (outBuffer.length - 1) 0).val &&& 0xF

/-- The key sizes `xorKeySize` declared by the layers that the loop peels, in the
order in which they are peeled: each is the low nibble of the byte below the
cursor left by the layers before it; the list stops after a peel that stops with
a fault. -/
def peeledKeySizes : Nat → ByteVector → Nat → List Nat
  | 0, _, _ => []
  | n + 1, outBuffer, outBufferSize =>
      ((outBuffer.getD (outBufferSize - 1) 0).val &&& 0xF) ::
        match peelLayer outBuffer outBufferSize with
        | .ok (outBuffer, outBufferSize) => peeledKeySizes n outBuffer outBufferSize
        | .error _ => []

/-- An 11-byte encoded buffer: the plaintext `44 42` under the 1-byte key `10`
(size byte `01`) and then the 2-byte key `A0 B0` (size byte `32`), behind the
header `DE FA BA AB` of length 11. -/
def exampleTwoLayers : ByteVector :=
  [0xDE, 0xFA, 0xBA, 0xAB, 0xF4, 0xE2, 0xB0, 0xB1, 0xA0, 0xB0, 0x32]

/-- The restamp of claim C19: the buffer with its last 4 bytes replaced by the
little-endian `calculateChecksum` of the buffer without its last 4 bytes. -/
def restamp (B : ByteVector) : ByteVector :=
  B.take (B.length - 4) ++ le32 (calculateChecksum (B.take (B.length - 4)))

/-! ## The output file name (`main`, lines 129 to 134) -/

/-- The search `s.find_last_of(c)` of `std::string`: the index of the last
occurrence of `c`, or `none` for `npos`. -/
def findLastOf (s : List Char) (c : Char) : Option Nat :=
  match s with
  | [] => none
  | x :: rest =>
      match findLastOf rest c with
      | some i => some (i + 1)
      | none => if x = c then some 0 else none

/-- Lines 129 to 134 of `main`: the output file name derived from the input file
name, a `std::string` modelled as its list of characters. -/
def outFileName (inFileName : List Char) : List Char :=
  match findLastOf inFileName '.' with
  | some fileNameExtensionPos =>
      inFileName.take fileNameExtensionPos ++ ".new".toList
        ++ inFileName.drop fileNameExtensionPos
  | none => inFileName ++ ".new.bdz".toList

/-- The file name of a path: the characters after the last `/`. -/
def fileNameOf (path : List Char) : List Char :=
  match findLastOf path '/' with
  | some i => path.drop (i + 1)
  | none => path

/-! ## Theorems -/

theorem checksumLoop_cons (b : Byte) (rest : ByteVector) (i result : Nat) :
    checksumLoop (b :: rest) i result
      = checksumLoop rest (i + 1) (((i % 2 ^ 32) ^^^ b.val) ^^^ rotExpr result) := rfl

theorem testBit_rotExpr (x k : Nat) :
    (rotExpr x).testBit k = (decide (k < 32) && x.testBit ((k + 31) % 32)) := by
  have h31 : (0x80000000 : Nat) = 2 ^ 31 := by norm_num
  unfold rotExpr
  rw [h31]
  simp only [Nat.testBit_or, Nat.testBit_shiftRight, Nat.testBit_and, Nat.testBit_mod_two_pow,
    Nat.testBit_shiftLeft, Nat.testBit_two_pow]
  rcases Nat.eq_zero_or_pos k with hk | hk
  · subst hk; simp
  · by_cases h : k < 32
    · have e1 : (k + 31) % 32 = k - 1 := by omega
      have e2 : ¬ (31 = 31 + k) := by omega
      have e3 : k ≥ 1 := hk
      simp [h, e1, e2, e3]
    · have e2 : ¬ (31 = 31 + k) := by omega
      simp [h, e2]

theorem rotExpr_lt (x : Nat) : rotExpr x < 2 ^ 32 := by
  apply Nat.lt_pow_two_of_testBit
  intro i hi
  have h : ¬ i < 32 := by omega
  simp [testBit_rotExpr, h]

theorem rotExpr_xor (x y : Nat) : rotExpr (x ^^^ y) = rotExpr x ^^^ rotExpr y := by
  apply Nat.eq_of_testBit_eq
  intro k
  simp only [testBit_rotExpr, Nat.testBit_xor]
  by_cases h : k < 32 <;> simp [h]

theorem rotExpr_iterate_xor (m x y : Nat) :
    rotExpr^[m] (x ^^^ y) = rotExpr^[m] x ^^^ rotExpr^[m] y := by
  induction m generalizing x y with
  | zero => rfl
  | succ m ih => simp only [Function.iterate_succ_apply, rotExpr_xor, ih]

theorem rotExpr_iterate_lt (m x : Nat) (hx : x < 2 ^ 32) : rotExpr^[m] x < 2 ^ 32 := by
  cases m with
  | zero => exact hx
  | succ m => rw [Function.iterate_succ_apply']; exact rotExpr_lt _

theorem testBit_rotExpr_iterate (m x k : Nat) (hx : x < 2 ^ 32) :
    (rotExpr^[m] x).testBit k = (decide (k < 32) && x.testBit ((k + 31 * m) % 32)) := by
  induction m generalizing k with
  | zero =>
      by_cases h : k < 32
      · simp [h, Nat.mod_eq_of_lt h]
      · have : x < 2 ^ k := lt_of_lt_of_le hx (Nat.pow_le_pow_right (by norm_num) (by omega))
        simp [h, Nat.testBit_lt_two_pow this]
  | succ m ih =>
      rw [Function.iterate_succ_apply', testBit_rotExpr, ih]
      have e : ((k + 31) % 32 + 31 * m) % 32 = (k + 31 * (m + 1)) % 32 := by omega
      have l : (k + 31) % 32 < 32 := Nat.mod_lt _ (by norm_num)
      simp [e, l]

theorem rotExpr_iterate_eq_zero (m x : Nat) (hx : x < 2 ^ 32) (h : rotExpr^[m] x = 0) :
    x = 0 := by
  apply Nat.eq_of_testBit_eq
  intro j
  rw [Nat.zero_testBit]
  by_cases hj : j < 32
  · have hk := testBit_rotExpr_iterate m x ((j + m) % 32) hx
    rw [h, Nat.zero_testBit] at hk
    have e : ((j + m) % 32 + 31 * m) % 32 = j := by omega
    have l : (j + m) % 32 < 32 := Nat.mod_lt _ (by norm_num)
    simp [e, l] at hk
    exact hk
  · exact Nat.testBit_lt_two_pow
      (lt_of_lt_of_le hx (Nat.pow_le_pow_right (by norm_num) (by omega)))

theorem rotExpr_iterate_injective (m x y : Nat) (hx : x < 2 ^ 32) (hy : y < 2 ^ 32)
    (h : rotExpr^[m] x = rotExpr^[m] y) : x = y := by
  have h0 : rotExpr^[m] (x ^^^ y) = 0 := by rw [rotExpr_iterate_xor, h, Nat.xor_self]
  have := rotExpr_iterate_eq_zero m (x ^^^ y) (Nat.xor_lt_two_pow hx hy) h0
  exact Nat.xor_eq_zero.mp this

theorem rotExpr_iterate_mod (m x : Nat) (hx : x < 2 ^ 32) :
    rotExpr^[m] x = rotExpr^[m % 32] x := by
  apply Nat.eq_of_testBit_eq
  intro k
  rw [testBit_rotExpr_iterate m x k hx, testBit_rotExpr_iterate (m % 32) x k hx]
  have e : (k + 31 * m) % 32 = (k + 31 * (m % 32)) % 32 := by omega
  rw [e]

theorem xor_swap_byte (a b c r : Nat) : (a ^^^ c) ^^^ r = ((a ^^^ b) ^^^ r) ^^^ (b ^^^ c) := by
  apply Nat.eq_of_testBit_eq
  intro k
  simp only [Nat.testBit_xor]
  cases a.testBit k <;> cases b.testBit k <;> cases c.testBit k <;> cases r.testBit k <;> rfl

theorem xor_eq_self_iff (x e : Nat) : x ^^^ e = x ↔ e = 0 := by
  constructor
  · intro h
    have : x ^^^ (x ^^^ e) = x ^^^ x := by rw [h]
    rw [← Nat.xor_assoc, Nat.xor_self, Nat.zero_xor] at this
    exact this
  · intro h; rw [h, Nat.xor_zero]

theorem checksumLoop_xor (xs : ByteVector) (i r d : Nat) :
    checksumLoop xs i (r ^^^ d) = checksumLoop xs i r ^^^ rotExpr^[xs.length] d := by
  induction xs generalizing i r d with
  | nil => rfl
  | cons b t ih =>
      rw [checksumLoop_cons, checksumLoop_cons, rotExpr_xor, ← Nat.xor_assoc, ih,
        List.length_cons, Function.iterate_succ_apply]

theorem checksumLoop_set (xs : ByteVector) (k : Nat) (c : Byte) (i r : Nat)
    (hk : k < xs.length) :
    checksumLoop (xs.set k c) i r
      = checksumLoop xs i r ^^^ rotExpr^[xs.length - 1 - k] ((xs.getD k 0).val ^^^ c.val) := by
  induction xs generalizing k i r with
  | nil => simp at hk
  | cons b t ih =>
      cases k with
      | zero =>
          rw [List.set_cons_zero, checksumLoop_cons, checksumLoop_cons,
            xor_swap_byte (i % 2 ^ 32) b.val c.val, checksumLoop_xor]
          simp
      | succ k =>
          rw [List.set_cons_succ, checksumLoop_cons, checksumLoop_cons,
            ih k (i + 1) _ (by simpa using hk)]
          have e : (b :: t).length - 1 - (k + 1) = t.length - 1 - k := by
            simp only [List.length_cons]; omega
          rw [e]
          simp

theorem checksumLoop_lt (xs : ByteVector) (i r : Nat) (hr : r < 2 ^ 32) :
    checksumLoop xs i r < 2 ^ 32 := by
  induction xs generalizing i r with
  | nil => exact hr
  | cons b t ih =>
      rw [checksumLoop_cons]
      apply ih
      have hb : b.val < 2 ^ 32 := lt_trans b.isLt (by norm_num)
      exact Nat.xor_lt_two_pow
        (Nat.xor_lt_two_pow (Nat.mod_lt _ (by norm_num)) hb) (rotExpr_lt r)

theorem seed_lt : seed < 2 ^ 32 := by unfold seed; norm_num

theorem calculateChecksum_lt (range : ByteVector) : calculateChecksum range < 2 ^ 32 :=
  checksumLoop_lt _ _ _ (Nat.xor_lt_two_pow (Nat.mod_lt _ (by norm_num)) seed_lt)

theorem calculateChecksum_set (R : ByteVector) (i : Nat) (c : Byte) (hi : i < R.length) :
    calculateChecksum (R.set i c)
      = calculateChecksum R ^^^ rotExpr^[R.length - 1 - i] ((R.getD i 0).val ^^^ c.val) := by
  unfold calculateChecksum
  rw [List.length_set, checksumLoop_set _ _ _ _ _ hi]

theorem byte_xor_lt (a b : Byte) : a.val ^^^ b.val < 2 ^ 32 :=
  Nat.xor_lt_two_pow (lt_trans a.isLt (by norm_num)) (lt_trans b.isLt (by norm_num))

theorem testBit_rotl32 (x k : Nat) (hx : x < 2 ^ 32) :
    (rotl32 x).testBit k = (decide (k < 32) && x.testBit ((k + 31) % 32)) := by
  unfold rotl32
  simp only [Nat.testBit_mod_two_pow, Nat.testBit_or, Nat.testBit_shiftLeft,
    Nat.testBit_shiftRight]
  rcases Nat.eq_zero_or_pos k with hk | hk
  · subst hk; simp
  · by_cases h : k < 32
    · have e1 : (k + 31) % 32 = k - 1 := by omega
      have e3 : k ≥ 1 := hk
      have hb : x.testBit (31 + k) = false :=
        Nat.testBit_lt_two_pow (lt_of_lt_of_le hx (Nat.pow_le_pow_right (by norm_num) (by omega)))
      simp [h, e1, e3, hb]
    · simp [h]

theorem rotExpr_eq_rotl32 (x : Nat) (hx : x < 2 ^ 32) : rotExpr x = rotl32 x := by
  apply Nat.eq_of_testBit_eq
  intro k
  rw [testBit_rotExpr, testBit_rotl32 x k hx]

theorem xor_mod_two_pow (a b n : Nat) : (a ^^^ b) % 2 ^ n = (a % 2 ^ n) ^^^ (b % 2 ^ n) := by
  apply Nat.eq_of_testBit_eq
  intro k
  simp only [Nat.testBit_mod_two_pow, Nat.testBit_xor]
  by_cases h : k < n <;> simp [h]

theorem checksumLoop_eq_foldl (rest pre : ByteVector) (r : Nat) (hr : r < 2 ^ 32) :
    checksumLoop rest pre.length r
      = (List.range' pre.length rest.length).foldl
          (fun result i => ((i ^^^ ((pre ++ rest).getD i 0).val) ^^^ rotl32 result) % 2 ^ 32) r := by
  induction rest generalizing pre r with
  | nil => rfl
  | cons b t ih =>
      have hb : b.val % 2 ^ 32 = b.val :=
        Nat.mod_eq_of_lt (lt_trans b.isLt (by norm_num))
      have hrot : rotl32 r % 2 ^ 32 = rotl32 r := by
        rw [← rotExpr_eq_rotl32 r hr]; exact Nat.mod_eq_of_lt (rotExpr_lt r)
      have hstep : ((pre.length ^^^ b.val) ^^^ rotl32 r) % 2 ^ 32
          = ((pre.length % 2 ^ 32) ^^^ b.val) ^^^ rotExpr r := by
        rw [xor_mod_two_pow, xor_mod_two_pow, hb, hrot, rotExpr_eq_rotl32 r hr]
      have hlt : ((pre.length % 2 ^ 32) ^^^ b.val) ^^^ rotExpr r < 2 ^ 32 :=
        Nat.xor_lt_two_pow (Nat.xor_lt_two_pow (Nat.mod_lt _ (by norm_num))
          (lt_trans b.isLt (by norm_num))) (rotExpr_lt r)
      have hget : (pre ++ b :: t).getD pre.length 0 = b := by
        rw [List.getD_eq_getElem?_getD, List.getElem?_append_right (le_refl _)]
        simp
      have ih2 := ih (pre ++ [b]) _ hlt
      simp only [List.length_append, List.length_singleton, List.append_assoc,
        List.singleton_append] at ih2
      rw [checksumLoop_cons, List.length_cons, List.range'_succ, List.foldl_cons, hget, hstep,
        ih2]

theorem orbit_leaves_low_byte :
    ∀ m < 32, m ≠ 0 → ∀ q < 8, ∃ t < 32, 8 ≤ (q + t * m) % 32 := by decide

theorem testBit_high_of_lt (d p n : Nat) (hd : d < 2 ^ n) (hp : n ≤ p) : d.testBit p = false :=
  Nat.testBit_lt_two_pow (lt_of_lt_of_le hd (Nat.pow_le_pow_right (by norm_num) hp))

theorem testBit_orbit_of_fixed (m d : Nat) (hd : d < 2 ^ 32) (h : rotExpr^[m] d = d)
    (t q : Nat) (hq : q < 32) (hb : d.testBit q = true) :
    d.testBit ((q + t * m) % 32) = true := by
  induction t with
  | zero => simpa [Nat.mod_eq_of_lt hq] using hb
  | succ t ih =>
      have hk := testBit_rotExpr_iterate m d (((q + t * m) % 32 + m) % 32) hd
      rw [h] at hk
      have e : (((q + t * m) % 32 + m) % 32 + 31 * m) % 32 = (q + t * m) % 32 := by omega
      have l : ((q + t * m) % 32 + m) % 32 < 32 := Nat.mod_lt _ (by norm_num)
      have e2 : (q + (t + 1) * m) % 32 = ((q + t * m) % 32 + m) % 32 := by
        rw [Nat.add_mul, Nat.one_mul]; omega
      rw [e2, hk, e, ih]
      simpa using l

theorem rotExpr_iterate_fixed_iff (m d : Nat) (hpos : d ≠ 0) (hd : d < 2 ^ 8) :
    rotExpr^[m] d = d ↔ m % 32 = 0 := by
  have hd32 : d < 2 ^ 32 := lt_trans hd (by norm_num)
  constructor
  · intro h
    by_contra hm
    rw [rotExpr_iterate_mod m d hd32] at h
    obtain ⟨p, hp⟩ := Nat.ne_zero_implies_bit_true hpos
    have hp8 : p < 8 := by
      by_contra hge
      rw [testBit_high_of_lt d p 8 hd (by omega)] at hp
      exact Bool.false_ne_true hp
    obtain ⟨t, _, ht⟩ := orbit_leaves_low_byte (m % 32) (Nat.mod_lt _ (by norm_num)) hm p hp8
    have hset := testBit_orbit_of_fixed (m % 32) d hd32 h t p (by omega) hp
    rw [testBit_high_of_lt d _ 8 hd ht] at hset
    exact Bool.false_ne_true hset
  · intro hm
    rw [rotExpr_iterate_mod m d hd32, hm]
    rfl

theorem byte_xor_ne_zero (a b : Byte) (h : a ≠ b) : a.val ^^^ b.val ≠ 0 := by
  intro h0
  exact h (Fin.ext (Nat.xor_eq_zero.mp h0))

theorem byte_xor_lt_256 (a b : Byte) : a.val ^^^ b.val < 2 ^ 8 :=
  Nat.xor_lt_two_pow (n := 8) a.isLt b.isLt

theorem calculateChecksum_swapBytes_eq (R : ByteVector) (i j : Nat) (hi : i < R.length)
    (hj : j < R.length) (hij : i ≠ j) :
    calculateChecksum (swapBytes R i j)
      = calculateChecksum R ^^^
          (rotExpr^[R.length - 1 - i] ((R.getD i 0).val ^^^ (R.getD j 0).val) ^^^
           rotExpr^[R.length - 1 - j] ((R.getD i 0).val ^^^ (R.getD j 0).val)) := by
  unfold swapBytes
  have hj2 : j < (R.set i (R.getD j 0)).length := by rw [List.length_set]; exact hj
  have hget : (R.set i (R.getD j 0)).getD j 0 = R.getD j 0 := by
    simp [List.getD_eq_getElem?_getD, List.getElem?_set_ne hij]
  rw [calculateChecksum_set _ j _ hj2, calculateChecksum_set R i _ hi, hget, List.length_set,
    Nat.xor_assoc, Nat.xor_comm (R.getD j 0).val]

theorem swap_changes_iff_lt (R : ByteVector) (i j : Nat) (hij : i < j) (hj : j < R.length)
    (hne : R.getD i 0 ≠ R.getD j 0) :
    calculateChecksum (swapBytes R i j) ≠ calculateChecksum R ↔ (j - i) % 32 ≠ 0 := by
  have hd0 := byte_xor_ne_zero _ _ hne
  have hd8 := byte_xor_lt_256 (R.getD i 0) (R.getD j 0)
  have hd32 := byte_xor_lt (R.getD i 0) (R.getD j 0)
  have hsplit : R.length - 1 - i = (R.length - 1 - j) + (j - i) := by omega
  rw [calculateChecksum_swapBytes_eq R i j (by omega) hj (by omega), hsplit,
    Function.iterate_add_apply, ← rotExpr_iterate_xor, Ne, xor_eq_self_iff]
  rw [Ne, ← rotExpr_iterate_fixed_iff (j - i) _ hd0 hd8]
  constructor
  · intro h hfix
    apply h
    rw [hfix, Nat.xor_self]
    exact Function.iterate_fixed rfl _
  · intro h h0
    apply h
    have := rotExpr_iterate_eq_zero _ _
      (Nat.xor_lt_two_pow (rotExpr_iterate_lt _ _ hd32) hd32) h0
    exact Nat.xor_eq_zero.mp this

theorem flipBit_ne (b : Byte) (k : Nat) (hk : k < 8) : flipBit b k ≠ b := by
  intro h
  have hv : (flipBit b k).val = b.val := by rw [h]
  have h2 : (1 <<< k) < 2 ^ 8 := by
    rw [Nat.one_shiftLeft]; exact Nat.pow_lt_pow_right (by norm_num) hk
  have hlt : b.val ^^^ (1 <<< k) < 256 := Nat.xor_lt_two_pow (n := 8) b.isLt h2
  have hv2 : (flipBit b k).val = b.val ^^^ (1 <<< k) := by
    unfold flipBit
    simp only [Fin.ofNat, Fin.val_mk]
    exact Nat.mod_eq_of_lt hlt
  rw [hv2, xor_eq_self_iff, Nat.one_shiftLeft] at hv
  exact absurd hv (by positivity)

theorem calculateChecksum_swapBytes_comm (R : ByteVector) (i j : Nat) (hi : i < R.length)
    (hj : j < R.length) (hij : i ≠ j) :
    calculateChecksum (swapBytes R i j) = calculateChecksum (swapBytes R j i) := by
  rw [calculateChecksum_swapBytes_eq R i j hi hj hij,
    calculateChecksum_swapBytes_eq R j i hj hi (Ne.symm hij),
    Nat.xor_comm (R.getD j 0).val,
    Nat.xor_comm (rotExpr^[R.length - 1 - j] _)]

/-- C3: `calculateChecksum` equals the reference definition for every byte
range (start with `n XOR 0x5E04A58C`, then `result = i XOR R[i] XOR rotl32 result`
for `i = 0 .. n-1`), and the expression
`((result & 0x80000000) >> 31) | (result << 1)` in 32-bit arithmetic is the left
rotation by one bit of every 32-bit `result`. -/
theorem calculateChecksum_eq_reference (R : ByteVector) :
    calculateChecksum R = checksumReference R ∧
    ∀ result, result < 2 ^ 32 →
      ((result &&& 0x80000000) >>> 31) ||| ((result <<< 1) % 2 ^ 32) = rotl32 result := by
  refine ⟨?_, fun result h => rotExpr_eq_rotl32 result h⟩
  have h := checksumLoop_eq_foldl R [] ((R.length % 2 ^ 32) ^^^ seed)
    (Nat.xor_lt_two_pow (Nat.mod_lt _ (by norm_num)) seed_lt)
  simp only [List.length_nil, List.nil_append] at h
  unfold calculateChecksum checksumReference
  rw [h, List.range_eq_range']
  rfl

/-- C3 at a concrete input: the range `[0xFF]` and the word `0x80000001`. -/
theorem calculateChecksum_eq_reference_witness :
    calculateChecksum [0xFF] = checksumReference [0xFF] ∧
    (0x80000001 < 2 ^ 32 ∧
      ((0x80000001 &&& 0x80000000) >>> 31) ||| ((0x80000001 <<< 1) % 2 ^ 32)
        = rotl32 0x80000001) :=
  ⟨(calculateChecksum_eq_reference [0xFF]).1, by norm_num,
    (calculateChecksum_eq_reference [0xFF]).2 0x80000001 (by norm_num)⟩

/-- C4: replacing the byte at any position `i` of a range by a different byte
value, in particular inverting any single bit of it, changes
`calculateChecksum`. -/
theorem calculateChecksum_single_byte_edit (R : ByteVector) (i : Nat) (hi : i < R.length) :
    (∀ c : Byte, c ≠ R[i] → calculateChecksum (R.set i c) ≠ calculateChecksum R) ∧
    (∀ k, k < 8 → calculateChecksum (R.set i (flipBit R[i] k)) ≠ calculateChecksum R) := by
  have key : ∀ c : Byte, c ≠ R[i] → calculateChecksum (R.set i c) ≠ calculateChecksum R := by
    intro c hc
    rw [calculateChecksum_set R i c hi, Ne, xor_eq_self_iff, List.getD_eq_getElem R 0 hi]
    intro h0
    have := rotExpr_iterate_eq_zero _ _ (byte_xor_lt R[i] c) h0
    exact byte_xor_ne_zero _ _ (Ne.symm hc) this
  exact ⟨key, fun k hk => key _ (flipBit_ne _ k hk)⟩

/-- C4 at a concrete input: the range `[1, 2, 3]`, position 1, replacement
byte `0x82` and bit 7. -/
theorem calculateChecksum_single_byte_edit_witness :
    calculateChecksum ([1, 2, 3].set 1 0x82) ≠ calculateChecksum [1, 2, 3] ∧
    calculateChecksum ([1, 2, 3].set 1 (flipBit 2 7)) ≠ calculateChecksum [1, 2, 3] :=
  ⟨(calculateChecksum_single_byte_edit [1, 2, 3] 1 (by decide)).1 0x82 (by decide),
   (calculateChecksum_single_byte_edit [1, 2, 3] 1 (by decide)).2 7 (by decide)⟩

/-- C5, as amended: exchanging two positions `i ≠ j` that hold different byte
values changes `calculateChecksum` exactly when the distance between the
positions is not a multiple of 32. -/
theorem calculateChecksum_swap_iff (R : ByteVector) (i j : Nat) (hi : i < R.length)
    (hj : j < R.length) (hij : i ≠ j) (hne : R[i] ≠ R[j]) :
    calculateChecksum (swapBytes R i j) ≠ calculateChecksum R ↔ Nat.dist i j % 32 ≠ 0 := by
  have hne2 : R.getD i 0 ≠ R.getD j 0 := by
    rw [List.getD_eq_getElem R 0 hi, List.getD_eq_getElem R 0 hj]; exact hne
  rcases Nat.lt_or_gt_of_ne hij with h | h
  · have hd : Nat.dist i j = j - i := by simp only [Nat.dist]; omega
    rw [hd]
    exact swap_changes_iff_lt R i j h hj hne2
  · have hd : Nat.dist i j = i - j := by simp only [Nat.dist]; omega
    rw [hd, calculateChecksum_swapBytes_comm R i j hi hj hij]
    exact swap_changes_iff_lt R j i h hi (Ne.symm hne2)

/-- C5 at a concrete input: positions 0 and 1 of `[1, 2]`. -/
theorem calculateChecksum_swap_iff_witness :
    calculateChecksum (swapBytes [1, 2] 0 1) ≠ calculateChecksum [1, 2] ↔
      Nat.dist 0 1 % 32 ≠ 0 :=
  calculateChecksum_swap_iff [1, 2] 0 1 (by decide) (by decide) (by decide) (by decide)

/-- C5 fails as stated: in the 33-byte range `[1, 0, ..., 0]` positions 0 and 32
hold different bytes, yet exchanging them leaves `calculateChecksum` unchanged. -/
theorem calculateChecksum_swap_32_apart :
    (1 :: List.replicate 32 (0 : Byte)).getD 0 0 ≠ (1 :: List.replicate 32 (0 : Byte)).getD 32 0 ∧
    swapBytes (1 :: List.replicate 32 (0 : Byte)) 0 32 = List.replicate 32 (0 : Byte) ++ [1] ∧
    calculateChecksum (swapBytes (1 :: List.replicate 32 (0 : Byte)) 0 32)
      = calculateChecksum (1 :: List.replicate 32 (0 : Byte)) := by
  refine ⟨by decide, by decide, by decide⟩

theorem readU32_zero_cons (b0 b1 b2 b3 : Byte) (rest : ByteVector) :
    readU32 (b0 :: b1 :: b2 :: b3 :: rest) 0
      = .ok (b0.val + 256 * b1.val + 65536 * b2.val + 16777216 * b3.val) := rfl

theorem exists_header (v : ByteVector) (h : 4 ≤ v.length) :
    ∃ b0 b1 b2 b3 rest, v = b0 :: b1 :: b2 :: b3 :: rest := by
  match v, h with
  | b0 :: b1 :: b2 :: b3 :: rest, _ => exact ⟨b0, b1, b2, b3, rest, rfl⟩

theorem decryptBoardSet_of_mismatch (inBuffer : ByteVector) (raw : Nat)
    (hraw : readU32 inBuffer 0 = .ok raw)
    (hne : raw ^^^ fileSizeXorKey ≠ inBuffer.length % 2 ^ 32) :
    decryptBoardSet inBuffer = .error .structuralMismatch := by
  unfold decryptBoardSet
  rw [hraw]
  simp only [bind, Except.bind]
  rw [if_pos hne]

theorem decryptBoardSet_of_match (inBuffer : ByteVector) (raw : Nat)
    (hraw : readU32 inBuffer 0 = .ok raw)
    (heq : raw ^^^ fileSizeXorKey = inBuffer.length % 2 ^ 32) :
    decryptBoardSet inBuffer = (do
      let lastIndex ← decr (inBuffer.drop 4).length
      let lastByte ← getByte (inBuffer.drop 4) lastIndex
      let r ← layerLoop (lastByte.val &&& 0xF) (inBuffer.drop 4) (inBuffer.drop 4).length
      pure (r.1.take r.2)) := by
  unfold decryptBoardSet
  rw [hraw]
  simp only [bind, Except.bind, pure, Except.pure]
  rw [if_neg (not_not.mpr heq)]

/-- C2, as amended: on every buffer of at least 4 bytes the header load
succeeds, and if the little-endian u32 formed by the first 4 bytes XOR
`0xABBAFAD5` differs from the buffer's length taken mod `2 ^ 32`,
`decryptBoardSet` fails with the structural-mismatch error and returns no
buffer. -/
theorem decryptBoardSet_structuralMismatch (inBuffer : ByteVector)
    (h4 : 4 ≤ inBuffer.length) :
    (∃ raw, readU32 inBuffer 0 = .ok raw) ∧
    ∀ raw, readU32 inBuffer 0 = .ok raw →
      raw ^^^ fileSizeXorKey ≠ inBuffer.length % 2 ^ 32 →
      decryptBoardSet inBuffer = .error .structuralMismatch := by
  obtain ⟨b0, b1, b2, b3, rest, rfl⟩ := exists_header inBuffer h4
  exact ⟨⟨_, readU32_zero_cons b0 b1 b2 b3 rest⟩,
    fun raw hraw hne => decryptBoardSet_of_mismatch _ raw hraw hne⟩

/-- C2 at a concrete input: a 5-byte buffer whose header decodes to 8. -/
theorem decryptBoardSet_structuralMismatch_witness :
    (∃ raw, readU32 [0xDD, 0xFA, 0xBA, 0xAB, 0x00] 0 = .ok raw) ∧
    decryptBoardSet [0xDD, 0xFA, 0xBA, 0xAB, 0x00] = .error .structuralMismatch :=
  ⟨(decryptBoardSet_structuralMismatch [0xDD, 0xFA, 0xBA, 0xAB, 0x00] (by decide)).1,
   (decryptBoardSet_structuralMismatch [0xDD, 0xFA, 0xBA, 0xAB, 0x00] (by decide)).2
     0xABBAFADD (by decide) (by decide)⟩

theorem getByte_append_last (work : ByteVector) (last : Byte) :
    getByte (work ++ [last]) work.length = .ok last := by
  unfold getByte
  simp

theorem decr_succ (n : Nat) : decr (n + 1) = .ok n := rfl

theorem decryptBoardSet_zero_layers (b0 b1 b2 b3 last : Byte) (work : ByteVector)
    (hsize : (b0.val + 256 * b1.val + 65536 * b2.val + 16777216 * b3.val) ^^^ fileSizeXorKey
      = (work.length + 5) % 2 ^ 32)
    (hlast : last.val &&& 0xF = 0) :
    decryptBoardSet (b0 :: b1 :: b2 :: b3 :: (work ++ [last])) = .ok (work ++ [last]) := by
  have hlen : (b0 :: b1 :: b2 :: b3 :: (work ++ [last])).length = work.length + 5 := by
    simp only [List.length_cons, List.length_append, List.length_nil]
  rw [decryptBoardSet_of_match _ _ (readU32_zero_cons b0 b1 b2 b3 _) (by rw [hlen]; exact hsize)]
  have hdrop : (b0 :: b1 :: b2 :: b3 :: (work ++ [last])).drop 4 = work ++ [last] := rfl
  have hl : (work ++ [last]).length = work.length + 1 := by
    simp only [List.length_append, List.length_cons, List.length_nil]
  rw [hdrop, hl, decr_succ]
  simp only [bind, Except.bind, getByte_append_last, hlast, layerLoop, pure, Except.pure]
  rw [← hl, List.take_length]

theorem length_header_body (b0 b1 b2 b3 last : Byte) (work : ByteVector) (n : Nat)
    (h : work.length = n) :
    (b0 :: b1 :: b2 :: b3 :: (work ++ [last])).length = n + 5 := by
  simp only [List.length_cons, List.length_append, List.length_nil, h]

/-- C2 fails as stated, in two ways.  On the empty buffer and on a 3-byte buffer
the header load is outside the buffer, and the outcome is not the
structural-mismatch error.  On the buffer of `2 ^ 32 + 5` bytes made of the
header `D0 FA BA AB` (which decodes to 5) and `2 ^ 32 + 1` zero bytes, the header
value differs from the length, yet the comparison is made after the conversion
of the length to `uint32_t`, the check passes, and a buffer is returned. -/
theorem decryptBoardSet_header_counterexample :
    decryptBoardSet [] = .error .outOfRange ∧
    decryptBoardSet [0xD6, 0xFA, 0xBA] = .error .outOfRange ∧
    (readU32 (0xD0 :: 0xFA :: 0xBA :: 0xAB :: (List.replicate 4294967296 0 ++ [0])) 0
        = .ok 0xABBAFAD0 ∧
      0xABBAFAD0 ^^^ fileSizeXorKey = 5 ∧
      (0xD0 :: 0xFA :: 0xBA :: 0xAB :: (List.replicate 4294967296 (0 : Byte) ++ [0])).length
        = 4294967301 ∧
      decryptBoardSet (0xD0 :: 0xFA :: 0xBA :: 0xAB :: (List.replicate 4294967296 0 ++ [0]))
        = .ok (List.replicate 4294967296 0 ++ [0])) := by
  refine ⟨by decide, by decide, ?_, by decide, ?_, ?_⟩
  · exact readU32_zero_cons _ _ _ _ _
  · exact length_header_body _ _ _ _ _ _ 4294967296 (List.length_replicate _ _)
  · apply decryptBoardSet_zero_layers
    · rw [List.length_replicate]; decide
    · decide

/-- C10 fails as stated: the 9-byte input carries the header of length 8, so
`decryptBoardSet` does not return `[0x01, 0x02, 0x03, 0x04]`. -/
theorem decryptBoardSet_scenario_counterexample :
    le32 (8 ^^^ fileSizeXorKey) ++ [0x01, 0x02, 0x03, 0x04] ++ [0x00]
        = [0xDD, 0xFA, 0xBA, 0xAB, 0x01, 0x02, 0x03, 0x04, 0x00] ∧
    decryptBoardSet (le32 (8 ^^^ fileSizeXorKey) ++ [0x01, 0x02, 0x03, 0x04] ++ [0x00])
        ≠ .ok [0x01, 0x02, 0x03, 0x04] := by
  refine ⟨by decide, by decide⟩

/-- C10, as amended: on the 9-byte input made of the header `8 XOR 0xABBAFAD5`,
the bytes `[0x01, 0x02, 0x03, 0x04]` and the trailer byte `0x00`,
`decryptBoardSet` fails with the structural-mismatch error, the header value 8
differing from the length 9; with the header `9 XOR 0xABBAFAD5` in its place it
returns `[0x01, 0x02, 0x03, 0x04, 0x00]`: zero layers are peeled, the trailer
byte is kept and the result has length 5. -/
theorem decryptBoardSet_scenario :
    decryptBoardSet (le32 (8 ^^^ fileSizeXorKey) ++ [0x01, 0x02, 0x03, 0x04] ++ [0x00])
        = .error .structuralMismatch ∧
    decryptBoardSet (le32 (9 ^^^ fileSizeXorKey) ++ [0x01, 0x02, 0x03, 0x04] ++ [0x00])
        = .ok [0x01, 0x02, 0x03, 0x04, 0x00] := by
  refine ⟨by decide, by decide⟩

/-- C8 on the code: in the 9-byte buffer with header `DC FA BA AB` (length 9)
and body `07 00 00 00 02` the second layer peeled declares key size 0 with the
cursor at 1, and the decrypting loop takes a remainder by zero; with the body
`00 00 00 02` (header `DD FA BA AB`) the second layer declares key size 0 with
the cursor at 0 and the empty buffer is returned.  In neither case is a
key-size error raised. -/
theorem decryptBoardSet_zero_key_size :
    decryptBoardSet [0xDC, 0xFA, 0xBA, 0xAB, 0x07, 0x00, 0x00, 0x00, 0x02]
        = .error .divideByZero ∧
    decryptBoardSet [0xDD, 0xFA, 0xBA, 0xAB, 0x00, 0x00, 0x00, 0x02] = .ok [] := by
  refine ⟨by decide, by decide⟩

theorem le32_zero : le32 0 = [0, 0, 0, 0] := by decide

theorem le32_length (x : Nat) : (le32 x).length = 4 := rfl

theorem le32_of_bytes (b0 b1 b2 b3 : Byte) :
    le32 (b0.val + 256 * b1.val + 65536 * b2.val + 16777216 * b3.val) = [b0, b1, b2, b3] := by
  have h0 := b0.isLt
  have h1 := b1.isLt
  have h2 := b2.isLt
  have h3 := b3.isLt
  unfold le32
  have e0 : (b0.val + 256 * b1.val + 65536 * b2.val + 16777216 * b3.val) % 256 = b0.val := by
    omega
  have e1 : (b0.val + 256 * b1.val + 65536 * b2.val + 16777216 * b3.val) / 256 % 256
      = b1.val := by omega
  have e2 : (b0.val + 256 * b1.val + 65536 * b2.val + 16777216 * b3.val) / 65536 % 256
      = b2.val := by omega
  have e3 : (b0.val + 256 * b1.val + 65536 * b2.val + 16777216 * b3.val) / 16777216 % 256
      = b3.val := by omega
  rw [e0, e1, e2, e3]
  have hof : ∀ b : Byte, (Fin.ofNat b.val : Fin 256) = b := by
    intro b
    apply Fin.ext
    simp only [Fin.ofNat, Fin.val_mk]
    exact Nat.mod_eq_of_lt b.isLt
  rw [hof, hof, hof, hof]

theorem list_of_length_four (l : ByteVector) (h : l.length = 4) :
    ∃ b0 b1 b2 b3, l = [b0, b1, b2, b3] := by
  match l, h with
  | [b0, b1, b2, b3], _ => exact ⟨b0, b1, b2, b3, rfl⟩

theorem restampChecksum_eq (B : ByteVector) (h4 : 4 ≤ B.length) :
    restampChecksum B
      = .ok (B.take (B.length - 4) ++ le32 (calculateChecksum (B.take (B.length - 4)))) := by
  have hlen : (B.drop (B.length - 4)).length = 4 := by rw [List.length_drop]; omega
  obtain ⟨b0, b1, b2, b3, hd⟩ := list_of_length_four _ hlen
  have hread : readU32 B (B.length - 4)
      = .ok (b0.val + 256 * b1.val + 65536 * b2.val + 16777216 * b3.val) := by
    unfold readU32; rw [hd]
  have hsplit : B = B.take (B.length - 4) ++ [b0, b1, b2, b3] := by
    rw [← hd, List.take_append_drop]
  have hdrop : B.drop (B.length - 4 + 4) = [] := by
    apply List.drop_eq_nil_of_le; omega
  unfold restampChecksum
  rw [if_neg (by omega)]
  simp only [bind, Except.bind, pure, Except.pure, hread]
  split
  · unfold writeU32
    rw [hdrop, List.append_nil]
  · rename_i hne
    have heq := not_not.mp hne
    rw [heq, le32_of_bytes]
    exact congrArg Except.ok hsplit

theorem processBoardSet_of_version (input : String) (buf : ByteVector) (v : Nat)
    (hv : readU32 buf versionNumberOffset = .ok v) (h67 : v = 6 ∨ v = 7) :
    processBoardSet input buf = (passwordStep input buf >>= restampChecksum) := by
  unfold processBoardSet
  rw [hv]
  simp only [bind, Except.bind, pure, Except.pure]
  rw [if_neg (by omega), if_pos (by omega)]

/-- C6: for a buffer with version 6 or 7 whose password step yields the buffer
`B` of length at least 4, the orchestrator produces a buffer of the same length
as `B`, with every byte before the last 4 unchanged and with the last 4 bytes
equal to the little-endian encoding of `calculateChecksum` over all bytes
preceding them. -/
theorem processBoardSet_restamp (input : String) (buf B : ByteVector) (v : Nat)
    (hv : readU32 buf versionNumberOffset = .ok v) (h67 : v = 6 ∨ v = 7)
    (hB : passwordStep input buf = .ok B) (h4 : 4 ≤ B.length) :
    ∃ out, processBoardSet input buf = .ok out ∧
      out.length = B.length ∧
      out.take (B.length - 4) = B.take (B.length - 4) ∧
      out.drop (out.length - 4) = le32 (calculateChecksum (out.take (out.length - 4))) := by
  refine ⟨B.take (B.length - 4) ++ le32 (calculateChecksum (B.take (B.length - 4))),
    ?_, ?_, ?_, ?_⟩
  · rw [processBoardSet_of_version input buf v hv h67, hB]
    exact restampChecksum_eq B h4
  · rw [List.length_append, List.length_take, le32_length]; omega
  · apply List.take_left'
    rw [List.length_take]; omega
  · have hl : (B.take (B.length - 4)
        ++ le32 (calculateChecksum (B.take (B.length - 4)))).length - 4
        = (B.take (B.length - 4)).length := by
      rw [List.length_append, List.length_take, le32_length]; omega
    rw [hl, List.drop_left, List.take_left]

/-- C6 at a concrete input: the 28-byte version 6 board set without password. -/
theorem processBoardSet_restamp_witness :
    ∃ out, processBoardSet "n" exampleOpen = .ok out ∧
      out.length = exampleOpen.length ∧
      out.take (exampleOpen.length - 4) = exampleOpen.take (exampleOpen.length - 4) ∧
      out.drop (out.length - 4) = le32 (calculateChecksum (out.take (out.length - 4))) :=
  processBoardSet_restamp "n" exampleOpen exampleOpen 6 (by decide) (by decide) (by decide)
    (by decide)

theorem passwordStep_of_size (input : String) (B : ByteVector) (N : Nat)
    (hN : readU32 B passwordSizeOffset = .ok N) (hfit : 0x18 + N ≤ B.length) :
    passwordStep input B
      = if 0 < N ∧ input = "y" then
          .ok (B.take 0x14 ++ [0, 0, 0, 0] ++ B.drop (0x18 + N))
        else .ok B := by
  have hz : (writeU32 B passwordSizeOffset 0).take (passwordSizeOffset + 4)
      = B.take 0x14 ++ [0, 0, 0, 0] := by
    unfold writeU32
    rw [le32_zero]
    apply List.take_left'
    rw [List.length_append, List.length_take]
    simp only [passwordSizeOffset, List.length_cons, List.length_nil]
    omega
  have hd : (writeU32 B passwordSizeOffset 0).drop (passwordSizeOffset + 4 + N)
      = B.drop (0x18 + N) := by
    unfold writeU32
    have hl : (B.take passwordSizeOffset ++ le32 0).length = 24 := by
      rw [List.length_append, List.length_take, le32_length]
      simp only [passwordSizeOffset]
      omega
    have hsum : passwordSizeOffset + 4 + N
        = (B.take passwordSizeOffset ++ le32 0).length + N := by rw [hl]; rfl
    have h24 : passwordSizeOffset + 4 = 24 := rfl
    rw [hsum, List.drop_append, List.drop_drop, h24]
  unfold passwordStep
  rw [hN]
  simp only [bind, Except.bind, pure, Except.pure]
  by_cases hpos : 0 < N
  · have hfit2 : ¬ (passwordSizeOffset + 4 + N > B.length) := by
      simp only [passwordSizeOffset]; omega
    rw [if_pos hpos, if_neg hfit2]
    by_cases hy : input = "y"
    · subst hy
      simp only [hz, hd, hpos, and_self, if_true, beq_self_eq_true]
    · have hb : (input == "y") = false := by simpa using hy
      simp [hb, hy]
  · rw [if_neg hpos]
    simp [hpos]

/-- C7: for a buffer `B` with version 6 or 7 whose password length field reads
`N` with `0x18 + N <= length B`: when `N > 0` and the bypass is accepted, the
buffer handed to the checksum block is `B[0 .. 0x14) ++ [0,0,0,0] ++ B[0x18+N ..)`,
whose length field reads 0 and whose length is that of `B` less `N`; when the
bypass is declined, or `N = 0`, the buffer handed to the checksum block is `B`. -/
theorem passwordStep_bypass (input : String) (B : ByteVector) (v N : Nat)
    (hv : readU32 B versionNumberOffset = .ok v) (h67 : v = 6 ∨ v = 7)
    (hN : readU32 B passwordSizeOffset = .ok N) (hfit : 0x18 + N ≤ B.length) :
    (0 < N →
      passwordStep "y" B = .ok (B.take 0x14 ++ [0, 0, 0, 0] ++ B.drop (0x18 + N)) ∧
      processBoardSet "y" B
        = restampChecksum (B.take 0x14 ++ [0, 0, 0, 0] ++ B.drop (0x18 + N)) ∧
      readU32 (B.take 0x14 ++ [0, 0, 0, 0] ++ B.drop (0x18 + N)) passwordSizeOffset = .ok 0 ∧
      (B.take 0x14 ++ [0, 0, 0, 0] ++ B.drop (0x18 + N)).length + N = B.length) ∧
    ((input ≠ "y" ∨ N = 0) →
      passwordStep input B = .ok B ∧ processBoardSet input B = restampChecksum B) := by
  constructor
  · intro hpos
    have hstep : passwordStep "y" B
        = .ok (B.take 0x14 ++ [0, 0, 0, 0] ++ B.drop (0x18 + N)) := by
      rw [passwordStep_of_size "y" B N hN hfit, if_pos ⟨hpos, rfl⟩]
    refine ⟨hstep, ?_, ?_, ?_⟩
    · rw [processBoardSet_of_version "y" B v hv h67, hstep]; rfl
    · have hl : (B.take 0x14).length = passwordSizeOffset := by
        rw [List.length_take]; simp only [passwordSizeOffset]; omega
      unfold readU32
      rw [List.append_assoc, List.drop_left' hl]
      rfl
    · simp only [List.length_append, List.length_take, List.length_drop, List.length_cons,
        List.length_nil]
      omega
  · intro hcase
    have hstep : passwordStep input B = .ok B := by
      rw [passwordStep_of_size input B N hN hfit, if_neg]
      rintro ⟨hpos, hy⟩
      rcases hcase with h | h
      · exact h hy
      · omega
    refine ⟨hstep, ?_⟩
    rw [processBoardSet_of_version input B v hv h67, hstep]; rfl

/-- C7 at a concrete input: the 31-byte version 7 board set with the 3-byte
password, once with the bypass accepted and once with the answer `n`. -/
theorem passwordStep_bypass_witness :
    (passwordStep "y" exampleLocked
        = .ok (exampleLocked.take 0x14 ++ [0, 0, 0, 0] ++ exampleLocked.drop (0x18 + 3)) ∧
      processBoardSet "y" exampleLocked
        = restampChecksum
            (exampleLocked.take 0x14 ++ [0, 0, 0, 0] ++ exampleLocked.drop (0x18 + 3)) ∧
      readU32 (exampleLocked.take 0x14 ++ [0, 0, 0, 0] ++ exampleLocked.drop (0x18 + 3))
        passwordSizeOffset = .ok 0 ∧
      (exampleLocked.take 0x14 ++ [0, 0, 0, 0] ++ exampleLocked.drop (0x18 + 3)).length + 3
        = exampleLocked.length) ∧
    (passwordStep "n" exampleLocked = .ok exampleLocked ∧
      processBoardSet "n" exampleLocked = restampChecksum exampleLocked) :=
  ⟨(passwordStep_bypass "n" exampleLocked 7 3 (by decide) (by decide) (by decide)
      (by decide)).1 (by decide),
   (passwordStep_bypass "n" exampleLocked 7 3 (by decide) (by decide) (by decide)
      (by decide)).2 (Or.inl (by decide))⟩

theorem getByte_eq_ok (v : ByteVector) (i : Nat) (h : i < v.length) :
    getByte v i = .ok (v.getD i 0) := by
  unfold getByte
  rw [List.get?_eq_getElem?, List.getElem?_eq_getElem h, List.getD_eq_getElem v 0 h]

theorem decr_pos (n : Nat) (h : 0 < n) : decr n = .ok (n - 1) := by
  unfold decr
  rw [if_neg (by omega)]

theorem xorLoop_succ (key : ByteVector) (s n k : Nat) (buf : ByteVector) (hpos : 0 < s)
    (hmod : k % s < key.length) (hk : k < buf.length) :
    xorLoop key s (n + 1) k buf
      = xorLoop key s n (k + 1) (buf.set k (buf.getD k 0 ^^^ key.getD (k % s) 0)) := by
  rw [xorLoop]
  simp only [bind, Except.bind, pure, Except.pure, getByte_eq_ok _ _ hmod,
    getByte_eq_ok _ _ hk, if_neg (Nat.pos_iff_ne_zero.mp hpos)]

theorem xorLoop_spec (key : ByteVector) (s : Nat) (hs : key.length = s) (hpos : 0 < s)
    (n k : Nat) (buf : ByteVector) (h : k + n ≤ buf.length) :
    ∃ out, xorLoop key s n k buf = .ok out ∧ out.length = buf.length ∧
      ∀ p, out[p]? = if k ≤ p ∧ p < k + n
        then (buf[p]?).map (fun b => b ^^^ key.getD (p % s) 0) else buf[p]? := by
  induction n generalizing k buf with
  | zero =>
      refine ⟨buf, rfl, rfl, fun p => ?_⟩
      rw [if_neg (by omega)]
  | succ n ih =>
      have hk : k < buf.length := by omega
      have hmod : k % s < key.length := by rw [hs]; exact Nat.mod_lt _ hpos
      obtain ⟨out, hrun, hlen, hget⟩ :=
        ih (k + 1) (buf.set k (buf.getD k 0 ^^^ key.getD (k % s) 0))
          (by rw [List.length_set]; omega)
      refine ⟨out, ?_, by rw [hlen, List.length_set], fun p => ?_⟩
      · rw [xorLoop_succ key s n k buf hpos hmod hk]
        exact hrun
      · rw [hget p]
        by_cases hpk : p = k
        · subst hpk
          rw [if_neg (by omega), if_pos (by omega), List.getElem?_set_self hk,
            List.getElem?_eq_getElem hk, List.getD_eq_getElem buf 0 hk]
          rfl
        · rw [List.getElem?_set_ne (Ne.symm hpk)]
          by_cases hin : k + 1 ≤ p ∧ p < k + 1 + n
          · rw [if_pos hin, if_pos (by omega)]
          · rw [if_neg hin, if_neg (by omega)]

theorem readKeyLoop_succ (buf : ByteVector) (s n j cur : Nat) (key : ByteVector)
    (hcur : 0 < cur) (hle : cur ≤ buf.length) :
    readKeyLoop buf s (n + 1) j key cur
      = readKeyLoop buf s n (j + 1) (key.set (s - 1 - j) (buf.getD (cur - 1) 0)) (cur - 1) := by
  rw [readKeyLoop]
  simp only [bind, Except.bind, decr_pos cur hcur, getByte_eq_ok buf (cur - 1) (by omega)]

theorem readKeyLoop_spec (buf : ByteVector) (s n j cur : Nat) (key : ByteVector)
    (hn : n ≤ cur) (hle : cur ≤ buf.length) (hj : j + n ≤ s) (hkey : key.length = s) :
    ∃ out, readKeyLoop buf s n j key cur = .ok (out, cur - n) ∧ out.length = s ∧
      ∀ p, out[p]? = if s - j - n ≤ p ∧ p < s - j
        then buf[cur + j + p - s]? else key[p]? := by
  induction n generalizing j cur key with
  | zero =>
      refine ⟨key, rfl, hkey, fun p => ?_⟩
      rw [if_neg (by omega)]
  | succ n ih =>
      have hcur : 0 < cur := by omega
      obtain ⟨out, hrun, hlen, hget⟩ :=
        ih (j + 1) (cur - 1) (key.set (s - 1 - j) (buf.getD (cur - 1) 0))
          (by omega) (by omega) (by omega) (by rw [List.length_set]; exact hkey)
      refine ⟨out, ?_, hlen, fun p => ?_⟩
      · rw [readKeyLoop_succ buf s n j cur key hcur hle, hrun]
        have e : cur - 1 - n = cur - (n + 1) := by omega
        rw [e]
      · rw [hget p]
        by_cases hp : p = s - 1 - j
        · subst hp
          have hidx : s - 1 - j < key.length := by omega
          have hb : cur - 1 < buf.length := by omega
          have e : cur + j + (s - 1 - j) - s = cur - 1 := by omega
          rw [if_neg (by omega), if_pos (by omega), List.getElem?_set_self hidx, e,
            List.getElem?_eq_getElem hb, List.getD_eq_getElem buf 0 hb]
        · rw [List.getElem?_set_ne (Ne.symm hp)]
          by_cases hin : s - (j + 1) - n ≤ p ∧ p < s - (j + 1)
          · have e : cur - 1 + (j + 1) + p - s = cur + j + p - s := by omega
            rw [if_pos hin, if_pos (by omega), e]
          · rw [if_neg hin, if_neg (by omega)]

theorem peelLayer_spec (buf : ByteVector) (cur s : Nat) (hcur : cur ≤ buf.length)
    (hs : (buf.getD (cur - 1) 0).val &&& 0xF = s) (hpos : 1 ≤ s) (hfit : s + 1 ≤ cur) :
    ∃ out, peelLayer buf cur = .ok (out, cur - 1 - s) ∧ out.length = buf.length ∧
      ∀ p, out[p]? = if p < cur - 1 - s
        then (buf[p]?).map (fun b => b ^^^ buf.getD (cur - 1 - s + p % s) 0) else buf[p]? := by
  obtain ⟨key, hkrun, hklen, hkget⟩ :=
    readKeyLoop_spec buf s s 0 (cur - 1) (List.replicate s 0)
      (by omega) (by omega) (by omega) (List.length_replicate _ _)
  obtain ⟨out, hxrun, hxlen, hxget⟩ :=
    xorLoop_spec key s hklen hpos (cur - 1 - s) 0 buf (by omega)
  have hkeyD : ∀ q, q < s → key.getD q 0 = buf.getD (cur - 1 - s + q) 0 := by
    intro q hq
    have e : cur - 1 + 0 + q - s = cur - 1 - s + q := by omega
    rw [List.getD_eq_getElem?_getD, List.getD_eq_getElem?_getD, hkget q, if_pos (by omega), e]
  refine ⟨out, ?_, hxlen, fun p => ?_⟩
  · unfold peelLayer
    simp only [bind, Except.bind, pure, Except.pure, decr_pos cur (by omega),
      getByte_eq_ok buf (cur - 1) (by omega), hs, hkrun, hxrun]
  · rw [hxget p]
    by_cases hp : p < cur - 1 - s
    · rw [if_pos (by omega), if_pos hp, hkeyD (p % s) (Nat.mod_lt _ hpos)]
    · rw [if_neg (by omega), if_neg hp]

theorem layerLoop_of_layersFit (n : Nat) (buf : ByteVector) (cur : Nat)
    (hcur : cur ≤ buf.length) (hfit : layersFit n buf cur = true) :
    ∃ out end_, layerLoop n buf cur = .ok (out, end_) ∧ out.length = buf.length ∧
      end_ ≤ cur := by
  induction n generalizing buf cur with
  | zero => exact ⟨buf, cur, rfl, rfl, le_refl _⟩
  | succ n ih =>
      rw [layersFit] at hfit
      simp only [Bool.and_eq_true, decide_eq_true_eq] at hfit
      obtain ⟨⟨hpos, hroom⟩, hrest⟩ := hfit
      obtain ⟨mid, hrun, hlen, _⟩ := peelLayer_spec buf cur _ hcur rfl hpos hroom
      rw [hrun] at hrest
      obtain ⟨out, end_, hloop, hlen2, hle⟩ := ih mid _ (by rw [hlen]; omega) hrest
      refine ⟨out, end_, ?_, by rw [hlen2, hlen], by omega⟩
      rw [layerLoop]
      simp only [bind, Except.bind, hrun, hloop]

/-- C9, as amended: for every buffer that passes the size-header check, whose
working buffer (the input without its 4 header bytes) is not empty, and in which
every peeled layer declares a key size `s` with `1 <= s` and `s + 1 <= cursor`,
`decryptBoardSet` returns a buffer; no subscript outside the working buffer and
no decrement of a zero cursor occurs, since either would be reported as a fault. -/
theorem decryptBoardSet_returns (inBuffer : ByteVector) (raw : Nat)
    (hraw : readU32 inBuffer 0 = .ok raw)
    (hsize : raw ^^^ fileSizeXorKey = inBuffer.length % 2 ^ 32)
    (hwork : (inBuffer.drop 4) ≠ [])
    (hfit : layersFit
      (((inBuffer.drop 4).getD ((inBuffer.drop 4).length - 1) 0).val &&& 0xF)
      (inBuffer.drop 4) (inBuffer.drop 4).length = true) :
    ∃ out, decryptBoardSet inBuffer = .ok out ∧ out.length ≤ (inBuffer.drop 4).length := by
  have hpos : 0 < (inBuffer.drop 4).length := List.length_pos.mpr hwork
  obtain ⟨out, end_, hloop, hlen, hle⟩ :=
    layerLoop_of_layersFit _ (inBuffer.drop 4) (inBuffer.drop 4).length (le_refl _) hfit
  refine ⟨out.take end_, ?_, ?_⟩
  · rw [decryptBoardSet_of_match inBuffer raw hraw hsize]
    simp only [bind, Except.bind, pure, Except.pure, decr_pos _ hpos,
      getByte_eq_ok (inBuffer.drop 4) ((inBuffer.drop 4).length - 1) (by omega), hloop]
  · rw [List.length_take]; omega

/-- C9 at a concrete input: one layer with the 1-byte key `10` over the
plaintext `41`. -/
theorem decryptBoardSet_returns_witness :
    ∃ out, decryptBoardSet [0xD2, 0xFA, 0xBA, 0xAB, 0x51, 0x10, 0x01] = .ok out ∧
      out.length ≤ (([0xD2, 0xFA, 0xBA, 0xAB, 0x51, 0x10, 0x01] : ByteVector).drop 4).length :=
  decryptBoardSet_returns [0xD2, 0xFA, 0xBA, 0xAB, 0x51, 0x10, 0x01] 0xABBAFAD2
    (by decide) (by decide) (by decide) (by decide)

/-- C9 fails as stated.  The 4-byte buffer `D1 FA BA AB` passes the size-header
check (its header decodes to 4) and peels no layer, yet the layer-count byte is
read at index `SIZE_MAX` of the empty working buffer.  The 5-byte buffer
`D0 FA BA AB 01` passes the check and declares one layer with key size 1, yet
the key byte is read after the cursor has reached 0. -/
theorem decryptBoardSet_out_of_range :
    readU32 [0xD1, 0xFA, 0xBA, 0xAB] 0 = .ok 0xABBAFAD1 ∧
    0xABBAFAD1 ^^^ fileSizeXorKey = ([0xD1, 0xFA, 0xBA, 0xAB] : ByteVector).length % 2 ^ 32 ∧
    decryptBoardSet [0xD1, 0xFA, 0xBA, 0xAB] = .error .outOfRange ∧
    readU32 [0xD0, 0xFA, 0xBA, 0xAB, 0x01] 0 = .ok 0xABBAFAD0 ∧
    0xABBAFAD0 ^^^ fileSizeXorKey
      = ([0xD0, 0xFA, 0xBA, 0xAB, 0x01] : ByteVector).length % 2 ^ 32 ∧
    decryptBoardSet [0xD0, 0xFA, 0xBA, 0xAB, 0x01] = .error .outOfRange := by
  refine ⟨by decide, by decide, by decide, by decide, by decide, by decide⟩

theorem byte_xor_cancel (a b : Byte) : (a ^^^ b) ^^^ b = a := by
  apply Fin.ext
  have hab : a.val ^^^ b.val < 256 := Nat.xor_lt_two_pow (n := 8) a.isLt b.isLt
  show ((a.val ^^^ b.val) % 256 ^^^ b.val) % 256 = a.val
  rw [Nat.mod_eq_of_lt hab, Nat.xor_assoc, Nat.xor_self, Nat.xor_zero]
  exact Nat.mod_eq_of_lt a.isLt

theorem xorWithKey_length (key buf : ByteVector) : (xorWithKey key buf).length = buf.length := by
  unfold xorWithKey
  rw [List.length_map, List.length_range]

theorem xorWithKey_getElem? (key buf : ByteVector) (p : Nat) (hp : p < buf.length) :
    (xorWithKey key buf)[p]? = some (buf.getD p 0 ^^^ key.getD (p % key.length) 0) := by
  unfold xorWithKey
  rw [List.getElem?_map, List.getElem?_range hp]
  rfl

theorem applyLayer_length (buf : ByteVector) (l : Layer) :
    (applyLayer buf l).length = buf.length + l.key.length + 1 := by
  unfold applyLayer
  simp only [List.length_append, xorWithKey_length, List.length_cons, List.length_nil]

theorem applyLayer_getElem?_data (buf : ByteVector) (l : Layer) (p : Nat) (hp : p < buf.length) :
    (applyLayer buf l)[p]? = some (buf.getD p 0 ^^^ l.key.getD (p % l.key.length) 0) := by
  unfold applyLayer
  rw [List.append_assoc, List.getElem?_append_left (by rw [xorWithKey_length]; exact hp),
    xorWithKey_getElem? _ _ _ hp]

theorem applyLayer_getElem?_key (buf : ByteVector) (l : Layer) (q : Nat)
    (hq : q < l.key.length) :
    (applyLayer buf l)[buf.length + q]? = some (l.key.getD q 0) := by
  unfold applyLayer
  rw [List.append_assoc,
    List.getElem?_append_right (by rw [xorWithKey_length]; omega), xorWithKey_length,
    List.getElem?_append_left (by omega)]
  have e : buf.length + q - buf.length = q := by omega
  rw [e, List.getElem?_eq_getElem hq, List.getD_eq_getElem l.key 0 hq]

theorem applyLayer_getElem?_size (buf : ByteVector) (l : Layer) :
    (applyLayer buf l)[buf.length + l.key.length]? = some l.sizeByte := by
  unfold applyLayer
  rw [List.getElem?_append_right
    (by rw [List.length_append, xorWithKey_length])]
  rw [List.length_append, xorWithKey_length, Nat.sub_self]
  rfl

theorem getElem?_of_take_eq (buf W : ByteVector) (h : buf.take W.length = W) (p : Nat)
    (hp : p < W.length) : buf[p]? = W[p]? := by
  rw [← List.getElem?_take_of_lt hp, h]

theorem getD_of_take_eq (buf W : ByteVector) (h : buf.take W.length = W) (p : Nat)
    (hp : p < W.length) : buf.getD p 0 = W.getD p 0 := by
  rw [List.getD_eq_getElem?_getD, List.getD_eq_getElem?_getD, getElem?_of_take_eq buf W h p hp]

theorem and_fifteen (x : Nat) : x &&& 0xF = x % 16 :=
  Nat.and_pow_two_sub_one_eq_mod x 4

theorem peelLayer_applyLayer (W : ByteVector) (l : Layer) (hwf : l.wellFormed)
    (buf : ByteVector) (hlen : (applyLayer W l).length ≤ buf.length)
    (htake : buf.take (applyLayer W l).length = applyLayer W l) :
    ∃ out, peelLayer buf (applyLayer W l).length = .ok (out, W.length) ∧
      out.length = buf.length ∧ out.take W.length = W := by
  have hL := applyLayer_length W l
  have hs1 : 1 ≤ l.key.length := hwf.1
  have hsize : (buf.getD ((applyLayer W l).length - 1) 0).val &&& 0xF = l.key.length := by
    have e : (applyLayer W l).length - 1 = W.length + l.key.length := by omega
    rw [getD_of_take_eq buf _ htake _ (by omega), e, List.getD_eq_getElem?_getD,
      applyLayer_getElem?_size, Option.getD_some, and_fifteen]
    exact hwf.2.2
  obtain ⟨out, hrun, holen, hget⟩ :=
    peelLayer_spec buf (applyLayer W l).length l.key.length hlen hsize hs1 (by omega)
  have hc : (applyLayer W l).length - 1 - l.key.length = W.length := by omega
  rw [hc] at hrun hget
  refine ⟨out, hrun, holen, ?_⟩
  apply List.ext_getElem?
  intro p
  rw [List.getElem?_take]
  by_cases hp : p < W.length
  · have hq : p % l.key.length < l.key.length := Nat.mod_lt _ hs1
    have hkey : buf.getD (W.length + p % l.key.length) 0
        = l.key.getD (p % l.key.length) 0 := by
      rw [getD_of_take_eq buf _ htake _ (by omega), List.getD_eq_getElem?_getD,
        applyLayer_getElem?_key W l _ hq, Option.getD_some]
    rw [if_pos hp, hget p, if_pos hp, hkey, getElem?_of_take_eq buf _ htake p (by omega),
      applyLayer_getElem?_data W l p hp, Option.map_some', byte_xor_cancel,
      List.getElem?_eq_getElem hp, List.getD_eq_getElem W 0 hp]
  · rw [if_neg hp, List.getElem?_eq_none (by omega)]

theorem encodeLayers_append_singleton (P : ByteVector) (init : List Layer) (l : Layer) :
    encodeLayers P (init ++ [l]) = applyLayer (encodeLayers P init) l := by
  unfold encodeLayers
  rw [List.foldl_append]
  rfl

theorem layerLoop_succ (n : Nat) (buf mid : ByteVector) (cur next : Nat)
    (h : peelLayer buf cur = .ok (mid, next)) :
    layerLoop (n + 1) buf cur = layerLoop n mid next := by
  rw [layerLoop]
  simp only [bind, Except.bind, h]

theorem layerLoop_encodeLayers (P : ByteVector) (layers : List Layer)
    (hwf : ∀ l ∈ layers, l.wellFormed) (buf : ByteVector)
    (hlen : (encodeLayers P layers).length ≤ buf.length)
    (htake : buf.take (encodeLayers P layers).length = encodeLayers P layers) :
    ∃ out, layerLoop layers.length buf (encodeLayers P layers).length = .ok (out, P.length) ∧
      out.length = buf.length ∧ out.take P.length = P := by
  induction layers using List.reverseRecOn generalizing buf with
  | nil => exact ⟨buf, rfl, rfl, htake⟩
  | append_singleton init l ih =>
      rw [encodeLayers_append_singleton] at hlen htake ⊢
      obtain ⟨mid, hpeel, hmlen, hmtake⟩ :=
        peelLayer_applyLayer (encodeLayers P init) l (hwf l (by simp)) buf hlen htake
      have hle : (encodeLayers P init).length ≤ mid.length := by
        rw [hmlen]
        have := applyLayer_length (encodeLayers P init) l
        omega
      obtain ⟨out, hrun, holen, hotake⟩ :=
        ih (fun x hx => hwf x (List.mem_append_left _ hx)) mid hle hmtake
      refine ⟨out, ?_, by rw [holen, hmlen], hotake⟩
      rw [List.length_append, List.length_singleton, layerLoop_succ _ _ _ _ _ hpeel]
      exact hrun

theorem readU32_le32_append (x : Nat) (rest : ByteVector) :
    readU32 (le32 x ++ rest) 0 = .ok (x % 2 ^ 32) := by
  have hval : ∀ a : Nat, (Fin.ofNat a : Fin 256).val = a % 256 := fun a => rfl
  show Except.ok ((Fin.ofNat (x % 256) : Fin 256).val
    + 256 * (Fin.ofNat (x / 256 % 256) : Fin 256).val
    + 65536 * (Fin.ofNat (x / 65536 % 256) : Fin 256).val
    + 16777216 * (Fin.ofNat (x / 16777216 % 256) : Fin 256).val) = _
  rw [hval, hval, hval, hval]
  congr 1
  omega

theorem fileSizeXorKey_lt : fileSizeXorKey < 2 ^ 32 := by unfold fileSizeXorKey; norm_num

theorem header_unmask (n : Nat) :
    ((n ^^^ 0xABBAFAD5) % 2 ^ 32) ^^^ fileSizeXorKey = n % 2 ^ 32 := by
  have hk : (0xABBAFAD5 : Nat) % 2 ^ 32 = fileSizeXorKey := by unfold fileSizeXorKey; norm_num
  rw [xor_mod_two_pow, hk, Nat.xor_assoc, Nat.xor_self, Nat.xor_zero]

theorem decryptBoardSet_encoded (P : ByteVector) (init : List Layer) (l : Layer)
    (hwf : ∀ x ∈ init ++ [l], x.wellFormed) (hcount : l.key.length = (init ++ [l]).length) :
    decryptBoardSet (encodeBoardSet P (init ++ [l])) = .ok P := by
  have hwl : l.wellFormed := hwf l (by simp)
  have hW := encodeLayers_append_singleton P init l
  have hWlen : (encodeLayers P (init ++ [l])).length
      = (encodeLayers P init).length + l.key.length + 1 := by
    rw [hW, applyLayer_length]
  have hdrop : (encodeBoardSet P (init ++ [l])).drop 4 = encodeLayers P (init ++ [l]) := by
    unfold encodeBoardSet
    exact List.drop_left' (le32_length _)
  have htotal : (encodeBoardSet P (init ++ [l])).length
      = (encodeLayers P (init ++ [l])).length + 4 := by
    unfold encodeBoardSet
    rw [List.length_append, le32_length, Nat.add_comm]
  have hraw : readU32 (encodeBoardSet P (init ++ [l])) 0
      = .ok ((((encodeLayers P (init ++ [l])).length + 4) ^^^ 0xABBAFAD5) % 2 ^ 32) := by
    unfold encodeBoardSet
    exact readU32_le32_append _ _
  have hlastD : (encodeLayers P (init ++ [l])).getD
      ((encodeLayers P (init ++ [l])).length - 1) 0 = l.sizeByte := by
    have e : (encodeLayers P (init ++ [l])).length - 1
        = (encodeLayers P init).length + l.key.length := by omega
    rw [e, hW, List.getD_eq_getElem?_getD, applyLayer_getElem?_size, Option.getD_some]
  have hnib : l.sizeByte.val &&& 0xF = (init ++ [l]).length := by
    rw [and_fifteen, hwl.2.2, hcount]
  obtain ⟨out, hrun, _, hotake⟩ :=
    layerLoop_encodeLayers P (init ++ [l]) hwf (encodeLayers P (init ++ [l])) (le_refl _)
      (List.take_length _)
  rw [decryptBoardSet_of_match _ _ hraw (by rw [header_unmask, htotal]), hdrop]
  simp only [bind, Except.bind, pure, Except.pure, decr_pos _ (by omega : 0 <
    (encodeLayers P (init ++ [l])).length), getByte_eq_ok _ _ (by omega :
    (encodeLayers P (init ++ [l])).length - 1 < (encodeLayers P (init ++ [l])).length),
    hlastD, hnib, hrun, hotake]

/-- C1, as amended: for every plaintext `P` and every sequence of 1 to 15 XOR
layers, each with a key of 1 to 15 bytes, in which the key of the last layer has
as many bytes as there are layers, let `encode P` be: for each layer in order,
XOR the current buffer with the key cycled from index 0 and append the key bytes
and a byte whose low nibble is the key size; no further trailer byte; prefix the
4-byte little-endian value of the total length XOR `0xABBAFAD5`.  Then
`decryptBoardSet (encode P)` returns `P`. -/
theorem decryptBoardSet_round_trip (P : ByteVector) (layers : List Layer)
    (hne : layers ≠ []) (hwf : ∀ l ∈ layers, l.wellFormed)
    (hcount : (layers.getLast hne).key.length = layers.length) :
    decryptBoardSet (encodeBoardSet P layers) = .ok P := by
  have hsplit := List.dropLast_append_getLast hne
  rw [← hsplit] at hwf ⊢
  apply decryptBoardSet_encoded P layers.dropLast (layers.getLast hne) hwf
  rw [hsplit]
  exact hcount

/-- C1 at a concrete input: the plaintext `44 42` under the 1-byte key `10` and
then the 2-byte key `A0 B0`, whose size byte is `32`. -/
theorem decryptBoardSet_round_trip_witness :
    decryptBoardSet (encodeBoardSet [0x44, 0x42]
      [⟨[0x10], 0x01⟩, ⟨[0xA0, 0xB0], 0x32⟩]) = .ok [0x44, 0x42] :=
  decryptBoardSet_round_trip [0x44, 0x42] [⟨[0x10], 0x01⟩, ⟨[0xA0, 0xB0], 0x32⟩]
    (List.cons_ne_nil _ _) (by decide) (by decide)

/-- C1 fails as stated.  With no layer the encoder of the claim yields the header,
the plaintext and the trailer byte `00`, and the decoder returns the plaintext
followed by the trailer byte.  With the single layer of key `10` over the
plaintext `41` the decoder takes the trailer byte as the size byte of the layer
and the layer's own size byte as its key, and returns `50 11`. -/
theorem decryptBoardSet_trailer_counterexample :
    encodeWithTrailer [0x01, 0x02, 0x03, 0x04] []
      = [0xDC, 0xFA, 0xBA, 0xAB, 0x01, 0x02, 0x03, 0x04, 0x00] ∧
    decryptBoardSet (encodeWithTrailer [0x01, 0x02, 0x03, 0x04] [])
      = .ok [0x01, 0x02, 0x03, 0x04, 0x00] ∧
    encodeWithTrailer [0x41] [⟨[0x10], 0x01⟩]
      = [0xDD, 0xFA, 0xBA, 0xAB, 0x51, 0x10, 0x01, 0x01] ∧
    decryptBoardSet (encodeWithTrailer [0x41] [⟨[0x10], 0x01⟩]) = .ok [0x50, 0x11] := by
  refine ⟨by decide, by decide, by decide, by decide⟩

theorem readU32_magic_iff (buf : ByteVector) (h4 : 4 ≤ buf.length) :
    readU32 buf 0 = .ok fileMagic ↔ buf.take 4 = [0x42, 0x44, 0x53, 0x54] := by
  obtain ⟨b0, b1, b2, b3, rest, rfl⟩ := exists_header buf h4
  rw [readU32_zero_cons]
  have h0 := b0.isLt
  have h1 := b1.isLt
  have h2 := b2.isLt
  have h3 := b3.isLt
  have htake : (b0 :: b1 :: b2 :: b3 :: rest).take 4 = [b0, b1, b2, b3] := rfl
  rw [htake]
  constructor
  · intro h
    have hv : b0.val + 256 * b1.val + 65536 * b2.val + 16777216 * b3.val = fileMagic :=
      Except.ok.inj h
    unfold fileMagic at hv
    have e0 : b0 = 0x42 := Fin.ext (by show b0.val = 0x42; omega)
    have e1 : b1 = 0x44 := Fin.ext (by show b1.val = 0x44; omega)
    have e2 : b2 = 0x53 := Fin.ext (by show b2.val = 0x53; omega)
    have e3 : b3 = 0x54 := Fin.ext (by show b3.val = 0x54; omega)
    rw [e0, e1, e2, e3]
  · intro h
    injection h with e0 h
    injection h with e1 h
    injection h with e2 h
    injection h with e3 h
    rw [e0, e1, e2, e3]
    rfl

theorem unlockBoardSet_of_magic (input : String) (buf : ByteVector)
    (h : readU32 buf 0 = .ok fileMagic) :
    unlockBoardSet input buf = processBoardSet input buf := by
  unfold unlockBoardSet
  rw [h]
  simp only [bind, Except.bind]
  rw [if_neg (not_not.mpr rfl)]

theorem unlockBoardSet_of_decrypted (input : String) (buf d : ByteVector) (m md : Nat)
    (hm : readU32 buf 0 = .ok m) (hne : m ≠ fileMagic) (hd : decryptBoardSet buf = .ok d)
    (hmd : readU32 d 0 = .ok md) :
    unlockBoardSet input buf
      = if md ≠ fileMagic then .error .notBoardSet else processBoardSet input d := by
  unfold unlockBoardSet
  rw [hm]
  simp only [bind, Except.bind, pure, Except.pure]
  rw [if_pos hne, hd]
  simp only [hmd]

/-- C11, as amended: the orchestrator treats a buffer of at least 4 bytes as
already native, and skips the decoder, exactly when its first four bytes are
`42 44 53 54` in file order (ASCII `BDST`), the byte sequence whose
little-endian u32 load is `0x54534442`; and it accepts a decoded buffer of at
least 4 bytes as a valid board set exactly when that buffer starts with the same
four bytes, stopping with the not-a-board-set error otherwise. -/
theorem unlockBoardSet_magic (input : String) (buf : ByteVector) (h4 : 4 ≤ buf.length) :
    (readU32 buf 0 = .ok fileMagic ↔ buf.take 4 = [0x42, 0x44, 0x53, 0x54]) ∧
    (buf.take 4 = [0x42, 0x44, 0x53, 0x54] →
      unlockBoardSet input buf = processBoardSet input buf) ∧
    (buf.take 4 ≠ [0x42, 0x44, 0x53, 0x54] →
      ∀ d, decryptBoardSet buf = .ok d → 4 ≤ d.length →
        (d.take 4 = [0x42, 0x44, 0x53, 0x54] →
          unlockBoardSet input buf = processBoardSet input d) ∧
        (d.take 4 ≠ [0x42, 0x44, 0x53, 0x54] →
          unlockBoardSet input buf = .error .notBoardSet)) := by
  refine ⟨readU32_magic_iff buf h4, fun h => ?_, fun h d hd hd4 => ⟨fun hm => ?_, fun hm => ?_⟩⟩
  · exact unlockBoardSet_of_magic input buf ((readU32_magic_iff buf h4).mpr h)
  · obtain ⟨b0, b1, b2, b3, rest, rfl⟩ := exists_header buf h4
    have hne : b0.val + 256 * b1.val + 65536 * b2.val + 16777216 * b3.val ≠ fileMagic :=
      fun e => h ((readU32_magic_iff _ h4).mp (by rw [readU32_zero_cons, e]))
    rw [unlockBoardSet_of_decrypted input _ d _ fileMagic (readU32_zero_cons _ _ _ _ _) hne hd
      ((readU32_magic_iff d hd4).mpr hm), if_neg (not_not.mpr rfl)]
  · obtain ⟨b0, b1, b2, b3, rest, rfl⟩ := exists_header buf h4
    have hne : b0.val + 256 * b1.val + 65536 * b2.val + 16777216 * b3.val ≠ fileMagic :=
      fun e => h ((readU32_magic_iff _ h4).mp (by rw [readU32_zero_cons, e]))
    obtain ⟨c0, c1, c2, c3, crest, rfl⟩ := exists_header d hd4
    have hned : c0.val + 256 * c1.val + 65536 * c2.val + 16777216 * c3.val ≠ fileMagic :=
      fun e => hm ((readU32_magic_iff _ hd4).mp (by rw [readU32_zero_cons, e]))
    rw [unlockBoardSet_of_decrypted input _ _ _ _ (readU32_zero_cons _ _ _ _ _) hne hd
      (readU32_zero_cons _ _ _ _ _), if_pos hned]

/-- C11 at a concrete input: the 28-byte native board set, and the 14-byte
encoding of an 8-byte version 3 board set under the 1-byte key `5A`. -/
theorem unlockBoardSet_magic_witness :
    (unlockBoardSet "n" exampleOpen = processBoardSet "n" exampleOpen) ∧
    (unlockBoardSet "n"
        [0xDB, 0xFA, 0xBA, 0xAB, 0x18, 0x1E, 0x09, 0x0E, 0x59, 0x5A, 0x5A, 0x5A, 0x5A, 0x01]
      = processBoardSet "n" [0x42, 0x44, 0x53, 0x54, 3, 0, 0, 0]) :=
  ⟨(unlockBoardSet_magic "n" exampleOpen (by decide)).2.1 (by decide),
   ((unlockBoardSet_magic "n"
      [0xDB, 0xFA, 0xBA, 0xAB, 0x18, 0x1E, 0x09, 0x0E, 0x59, 0x5A, 0x5A, 0x5A, 0x5A, 0x01]
      (by decide)).2.2 (by decide) [0x42, 0x44, 0x53, 0x54, 3, 0, 0, 0] (by decide)
      (by decide)).1 (by decide)⟩

/-- C11 fails as stated: the bytes `44 42 53 54` (`DBST`) load as `0x54534244`,
which is not the magic `0x54534442`.  A 28-byte version 6 buffer that starts
with `44 42 53 54` is not treated as native: the decoder is run on it and stops
with the structural-mismatch error.  A buffer that decodes to a buffer starting
with `44 42 53 54` is rejected as not a board set. -/
theorem unlockBoardSet_dbst_counterexample :
    readU32 [0x44, 0x42, 0x53, 0x54] 0 = .ok 0x54534244 ∧
    (0x54534244 : Nat) ≠ fileMagic ∧
    unlockBoardSet "n"
      [0x44, 0x42, 0x53, 0x54, 6, 0, 0, 0, 1, 2, 3, 4, 5, 6, 7, 8, 9, 10, 11, 12,
       0, 0, 0, 0, 0xAA, 0xBB, 0xCC, 0xDD] = .error .structuralMismatch ∧
    decryptBoardSet
      [0xDB, 0xFA, 0xBA, 0xAB, 0x1E, 0x18, 0x09, 0x0E, 0x59, 0x5A, 0x5A, 0x5A, 0x5A, 0x01]
      = .ok [0x44, 0x42, 0x53, 0x54, 3, 0, 0, 0] ∧
    unlockBoardSet "n"
      [0xDB, 0xFA, 0xBA, 0xAB, 0x1E, 0x18, 0x09, 0x0E, 0x59, 0x5A, 0x5A, 0x5A, 0x5A, 0x01]
      = .error .notBoardSet := by
  refine ⟨by decide, by decide, by decide, by decide, by decide⟩

/-- C12: a buffer that starts with the native magic and whose version is at
most 5 is written byte for byte as it was read; a buffer without the magic
whose decoding starts with the magic and has a version of at most 5 is written
as exactly that decoding; and whatever is written for a buffer without the magic
whose decoding has a version of at most 5 is exactly that decoding. -/
theorem unlockBoardSet_passthrough (input : String) (buf : ByteVector) (v : Nat) :
    (readU32 buf 0 = .ok fileMagic → readU32 buf versionNumberOffset = .ok v → v ≤ 5 →
      unlockBoardSet input buf = .ok buf) ∧
    (∀ m d, readU32 buf 0 = .ok m → m ≠ fileMagic → decryptBoardSet buf = .ok d →
      readU32 d 0 = .ok fileMagic → readU32 d versionNumberOffset = .ok v → v ≤ 5 →
      unlockBoardSet input buf = .ok d) ∧
    (∀ m d out, readU32 buf 0 = .ok m → m ≠ fileMagic → decryptBoardSet buf = .ok d →
      readU32 d versionNumberOffset = .ok v → v ≤ 5 →
      unlockBoardSet input buf = .ok out → out = d) := by
  have hproc : ∀ b : ByteVector, readU32 b versionNumberOffset = .ok v → v ≤ 5 →
      processBoardSet input b = .ok b := by
    intro b hv h5
    unfold processBoardSet
    rw [hv]
    simp only [bind, Except.bind, pure, Except.pure]
    rw [if_neg (by omega), if_neg (by omega)]
  refine ⟨fun hm hv h5 => ?_, fun m d hm hne hd hmd hv h5 => ?_,
    fun m d out hm hne hd hv h5 hout => ?_⟩
  · rw [unlockBoardSet_of_magic input buf hm]
    exact hproc buf hv h5
  · rw [unlockBoardSet_of_decrypted input buf d m fileMagic hm hne hd hmd,
      if_neg (not_not.mpr rfl)]
    exact hproc d hv h5
  · cases hmd : readU32 d 0 with
    | error e =>
        unfold unlockBoardSet at hout
        rw [hm] at hout
        simp only [bind, Except.bind, pure, Except.pure] at hout
        rw [if_pos hne, hd] at hout
        simp only [hmd] at hout
        cases hout
    | ok md =>
        rw [unlockBoardSet_of_decrypted input buf d m md hm hne hd hmd] at hout
        by_cases hmagic : md = fileMagic
        · rw [if_neg (not_not.mpr hmagic), hproc d hv h5] at hout
          exact (Except.ok.inj hout).symm
        · rw [if_pos hmagic] at hout
          cases hout

/-- C12 at concrete inputs: the 8-byte native board set of version 3, and its
14-byte encoding under the 1-byte key `5A`. -/
theorem unlockBoardSet_passthrough_witness :
    unlockBoardSet "y" [0x42, 0x44, 0x53, 0x54, 3, 0, 0, 0]
      = .ok [0x42, 0x44, 0x53, 0x54, 3, 0, 0, 0] ∧
    unlockBoardSet "y"
        [0xDB, 0xFA, 0xBA, 0xAB, 0x18, 0x1E, 0x09, 0x0E, 0x59, 0x5A, 0x5A, 0x5A, 0x5A, 0x01]
      = .ok [0x42, 0x44, 0x53, 0x54, 3, 0, 0, 0] ∧
    ([0x42, 0x44, 0x53, 0x54, 3, 0, 0, 0] : ByteVector) = [0x42, 0x44, 0x53, 0x54, 3, 0, 0, 0] :=
  ⟨(unlockBoardSet_passthrough "y" [0x42, 0x44, 0x53, 0x54, 3, 0, 0, 0] 3).1
      (by decide) (by decide) (by decide),
   (unlockBoardSet_passthrough "y"
      [0xDB, 0xFA, 0xBA, 0xAB, 0x18, 0x1E, 0x09, 0x0E, 0x59, 0x5A, 0x5A, 0x5A, 0x5A, 0x01]
      3).2.1
      0xABBAFADB [0x42, 0x44, 0x53, 0x54, 3, 0, 0, 0]
      (by decide) (by decide) (by decide) (by decide) (by decide) (by decide),
   (unlockBoardSet_passthrough "y"
      [0xDB, 0xFA, 0xBA, 0xAB, 0x18, 0x1E, 0x09, 0x0E, 0x59, 0x5A, 0x5A, 0x5A, 0x5A, 0x01]
      3).2.2
      0xABBAFADB [0x42, 0x44, 0x53, 0x54, 3, 0, 0, 0] [0x42, 0x44, 0x53, 0x54, 3, 0, 0, 0]
      (by decide) (by decide) (by decide) (by decide) (by decide) (by decide)⟩

/-- C13: `calculateChecksum` of the empty range is the seed `0x5E04A58C`. -/
theorem calculateChecksum_empty : calculateChecksum [] = 0x5E04A58C := by decide

/-- C14: for every byte `b`, `calculateChecksum [b]` is
`0 XOR b XOR rotl32 (1 XOR 0x5E04A58C)`, which is `b XOR 0xBC094B1A`; for the
single byte `0xFF` it is `0xBC094BE5`. -/
theorem calculateChecksum_one_byte (b : Byte) :
    calculateChecksum [b] = (0 ^^^ b.val) ^^^ rotl32 (1 ^^^ 0x5E04A58C) ∧
    calculateChecksum [b] = b.val ^^^ 0xBC094B1A ∧
    calculateChecksum [0xFF] = 0xBC094BE5 := by
  have hrot : rotl32 (1 ^^^ 0x5E04A58C) = 0xBC094B1A := by decide
  have hcode : calculateChecksum [b] = b.val ^^^ 0xBC094B1A := by
    have hr : rotExpr ((1 % 2 ^ 32) ^^^ seed) = 0xBC094B1A := by decide
    show checksumLoop [b] 0 (([b].length % 2 ^ 32) ^^^ seed) = _
    rw [checksumLoop_cons]
    show ((0 % 2 ^ 32) ^^^ b.val) ^^^ rotExpr ((1 % 2 ^ 32) ^^^ seed) = _
    rw [hr, Nat.zero_mod, Nat.zero_xor]
  refine ⟨?_, hcode, by decide⟩
  rw [hcode, hrot, Nat.zero_xor]

theorem getByte_ok_inv (v : ByteVector) (i : Nat) (b : Byte) (h : getByte v i = .ok b) :
    i < v.length ∧ b = v.getD i 0 := by
  by_cases hi : i < v.length
  · rw [getByte_eq_ok v i hi] at h
    exact ⟨hi, (Except.ok.inj h).symm⟩
  · unfold getByte at h
    rw [List.get?_eq_getElem?, List.getElem?_eq_none (by omega)] at h
    cases h

theorem decr_ok_inv (n m : Nat) (h : decr n = .ok m) : 0 < n ∧ m = n - 1 := by
  unfold decr at h
  by_cases hn : n = 0
  · rw [if_pos hn] at h; cases h
  · rw [if_neg hn] at h
    exact ⟨Nat.pos_of_ne_zero hn, (Except.ok.inj h).symm⟩

theorem readKeyLoop_ok_inv (buf : ByteVector) (s n j : Nat) (key : ByteVector) (cur : Nat)
    (out : ByteVector) (c : Nat) (h : readKeyLoop buf s n j key cur = .ok (out, c)) :
    c + n = cur := by
  induction n generalizing j key cur with
  | zero =>
      rw [readKeyLoop] at h
      injection h with h
      injection h with _ h2
      omega
  | succ n ih =>
      by_cases hcur : 0 < cur
      · by_cases hb : cur - 1 < buf.length
        · rw [readKeyLoop_succ buf s n j cur key hcur (by omega)] at h
          have := ih _ _ _ h
          omega
        · rw [readKeyLoop] at h
          have hg : getByte buf (cur - 1) = .error .outOfRange := by
            unfold getByte
            rw [List.get?_eq_getElem?, List.getElem?_eq_none (by omega)]
          simp only [bind, Except.bind, decr_pos cur hcur, hg] at h
          cases h
      · rw [readKeyLoop] at h
        have hd : decr cur = .error .outOfRange := by
          unfold decr; rw [if_pos (by omega)]
        simp only [bind, Except.bind, hd] at h
        cases h

theorem xorLoop_ok_inv (key : ByteVector) (s n k : Nat) (buf out : ByteVector)
    (h : xorLoop key s n k buf = .ok out) : out.length = buf.length := by
  induction n generalizing k buf with
  | zero =>
      rw [xorLoop] at h
      rw [← Except.ok.inj h]
  | succ n ih =>
      rw [xorLoop] at h
      by_cases hs : s = 0
      · simp only [bind, Except.bind, if_pos hs, throw, throwThe, MonadExceptOf.throw] at h
        cases h
      · simp only [bind, Except.bind, if_neg hs, pure, Except.pure] at h
        cases hk : getByte key (k % s) with
        | error e => rw [hk] at h; cases h
        | ok kb =>
            rw [hk] at h
            cases hb : getByte buf k with
            | error e => rw [hb] at h; cases h
            | ok ob =>
                rw [hb] at h
                have := ih _ _ h
                rw [this, List.length_set]

theorem peelLayer_ok_inv (buf : ByteVector) (cur : Nat) (out : ByteVector) (next : Nat)
    (h : peelLayer buf cur = .ok (out, next)) :
    next + 1 + ((buf.getD (cur - 1) 0).val &&& 0xF) = cur ∧ out.length = buf.length := by
  unfold peelLayer at h
  cases hd : decr cur with
  | error e => rw [hd] at h; cases h
  | ok c1 =>
      obtain ⟨hpos, rfl⟩ := decr_ok_inv cur c1 hd
      rw [hd] at h
      cases hb : getByte buf (cur - 1) with
      | error e => simp only [bind, Except.bind, hb] at h; cases h
      | ok sizeByte =>
          obtain ⟨_, rfl⟩ := getByte_ok_inv buf (cur - 1) sizeByte hb
          simp only [bind, Except.bind, hb] at h
          cases hk : readKeyLoop buf ((buf.getD (cur - 1) 0).val &&& 0xF)
              ((buf.getD (cur - 1) 0).val &&& 0xF) 0
              (List.replicate ((buf.getD (cur - 1) 0).val &&& 0xF) 0) (cur - 1) with
          | error e => rw [hk] at h; cases h
          | ok r =>
              obtain ⟨key, c⟩ := r
              rw [hk] at h
              have hc := readKeyLoop_ok_inv _ _ _ _ _ _ _ _ hk
              simp only [] at h
              cases hx : xorLoop key ((buf.getD (cur - 1) 0).val &&& 0xF) c 0 buf with
              | error e => rw [hx] at h; cases h
              | ok o =>
                  rw [hx] at h
                  simp only [pure, Except.pure] at h
                  injection h with h
                  injection h with h1 h2
                  subst h1 h2
                  exact ⟨by omega, xorLoop_ok_inv _ _ _ _ _ _ hx⟩
theorem layerLoop_ok_inv (n : Nat) (buf : ByteVector) (cur : Nat) (out : ByteVector) (c : Nat)
    (h : layerLoop n buf cur = .ok (out, c)) :
    c + ((peeledKeySizes n buf cur).map (fun s => 1 + s)).sum = cur ∧
      out.length = buf.length ∧ (peeledKeySizes n buf cur).length = n := by
  induction n generalizing buf cur with
  | zero =>
      rw [layerLoop] at h
      injection h with h
      injection h with h1 h2
      subst h1 h2
      exact ⟨by simp [peeledKeySizes], rfl, rfl⟩
  | succ n ih =>
      cases hp : peelLayer buf cur with
      | error e =>
          rw [layerLoop] at h
          simp only [bind, Except.bind, hp] at h
          cases h
      | ok r =>
          obtain ⟨mid, next⟩ := r
          rw [layerLoop_succ n buf mid cur next hp] at h
          obtain ⟨hsum, hlen, hcount⟩ := ih mid next h
          obtain ⟨hnext, hmid⟩ := peelLayer_ok_inv buf cur mid next hp
          rw [peeledKeySizes, hp]
          simp only [List.map_cons, List.sum_cons, List.length_cons]
          exact ⟨by omega, by rw [hlen, hmid], by rw [hcount]⟩

theorem decryptBoardSet_ok_inv (inBuffer out : ByteVector)
    (h : decryptBoardSet inBuffer = .ok out) :
    ∃ raw final cursor, readU32 inBuffer 0 = .ok raw ∧
      raw ^^^ fileSizeXorKey = inBuffer.length % 2 ^ 32 ∧
      inBuffer.drop 4 ≠ [] ∧
      layerLoop (numEncryptionLayers (inBuffer.drop 4)) (inBuffer.drop 4)
        (inBuffer.drop 4).length = .ok (final, cursor) ∧
      out = final.take cursor := by
  cases hraw : readU32 inBuffer 0 with
  | error e =>
      unfold decryptBoardSet at h
      simp only [bind, Except.bind, hraw] at h
      cases h
  | ok raw =>
      by_cases hsize : raw ^^^ fileSizeXorKey = inBuffer.length % 2 ^ 32
      · rw [decryptBoardSet_of_match inBuffer raw hraw hsize] at h
        by_cases hw : inBuffer.drop 4 = []
        · have hd : decr (inBuffer.drop 4).length = .error .outOfRange := by
            rw [hw]; rfl
          simp only [bind, Except.bind, hd] at h
          cases h
        · have hpos : 0 < (inBuffer.drop 4).length := List.length_pos.mpr hw
          simp only [bind, Except.bind, pure, Except.pure, decr_pos _ hpos,
            getByte_eq_ok (inBuffer.drop 4) ((inBuffer.drop 4).length - 1) (by omega)] at h
          cases hl : layerLoop (numEncryptionLayers (inBuffer.drop 4)) (inBuffer.drop 4)
              (inBuffer.drop 4).length with
          | error e =>
              unfold numEncryptionLayers at hl
              rw [hl] at h
              cases h
          | ok r =>
              obtain ⟨final, cursor⟩ := r
              unfold numEncryptionLayers at hl
              rw [hl] at h
              exact ⟨raw, final, cursor, rfl, hsize, hw, rfl,
                (Except.ok.inj h).symm⟩
      · rw [decryptBoardSet_of_mismatch inBuffer raw hraw hsize] at h
        cases h

theorem peeledKeySizes_length_of_ok (inBuffer out : ByteVector)
    (h : decryptBoardSet inBuffer = .ok out) :
    (peeledKeySizes (numEncryptionLayers (inBuffer.drop 4)) (inBuffer.drop 4)
        (inBuffer.drop 4).length).length = numEncryptionLayers (inBuffer.drop 4) := by
  obtain ⟨_, _, _, _, _, _, hloop, _⟩ := decryptBoardSet_ok_inv inBuffer out h
  exact (layerLoop_ok_inv _ _ _ _ _ hloop).2.2

/-- C16: when `decryptBoardSet` returns, with `L` the low nibble of the last
byte and `s_1 .. s_L` the key sizes of the layers peeled, exactly `L` layers have
been peeled, the result has length `(input length - 4) - sum (1 + s_i)`, and it
is the initial segment of that length of the working buffer left by the `L` XOR
passes; when `L = 0` the result is the input without its first 4 bytes. -/
theorem decryptBoardSet_result_length (inBuffer out : ByteVector)
    (h : decryptBoardSet inBuffer = .ok out) :
    (peeledKeySizes (numEncryptionLayers (inBuffer.drop 4)) (inBuffer.drop 4)
        (inBuffer.drop 4).length).length = numEncryptionLayers (inBuffer.drop 4) ∧
    out.length = (inBuffer.length - 4) -
      ((peeledKeySizes (numEncryptionLayers (inBuffer.drop 4)) (inBuffer.drop 4)
        (inBuffer.drop 4).length).map (fun s => 1 + s)).sum ∧
    out.length + ((peeledKeySizes (numEncryptionLayers (inBuffer.drop 4)) (inBuffer.drop 4)
        (inBuffer.drop 4).length).map (fun s => 1 + s)).sum + 4 = inBuffer.length ∧
    (∃ final cursor, layerLoop (numEncryptionLayers (inBuffer.drop 4)) (inBuffer.drop 4)
        (inBuffer.drop 4).length = .ok (final, cursor) ∧
      final.length = (inBuffer.drop 4).length ∧ out = final.take out.length) ∧
    (numEncryptionLayers (inBuffer.drop 4) = 0 → out = inBuffer.drop 4) := by
  obtain ⟨raw, final, cursor, hraw, _, hw, hloop, hout⟩ := decryptBoardSet_ok_inv inBuffer out h
  obtain ⟨hsum, hlen, hcount⟩ := layerLoop_ok_inv _ _ _ _ _ hloop
  have hdrop : (inBuffer.drop 4).length = inBuffer.length - 4 := List.length_drop 4 inBuffer
  have hpos : 0 < (inBuffer.drop 4).length := List.length_pos.mpr hw
  have holen : out.length = cursor := by
    rw [hout, List.length_take, hlen]; omega
  refine ⟨hcount, by omega, by omega, ⟨final, cursor, hloop, hlen, by rw [holen]; exact hout⟩,
    fun h0 => ?_⟩
  rw [h0, layerLoop] at hloop
  injection hloop with hloop
  injection hloop with h1 h2
  rw [hout, ← h1, ← h2, List.take_length]

/-- C16 at a concrete input: the 11-byte buffer with two layers. -/
theorem decryptBoardSet_result_length_witness :
    decryptBoardSet exampleTwoLayers = .ok [0x44, 0x42] ∧
    ([0x44, 0x42] : ByteVector).length
      + ((peeledKeySizes (numEncryptionLayers (exampleTwoLayers.drop 4))
          (exampleTwoLayers.drop 4) (exampleTwoLayers.drop 4).length).map
            (fun s => 1 + s)).sum + 4 = exampleTwoLayers.length :=
  ⟨by decide, (decryptBoardSet_result_length exampleTwoLayers [0x44, 0x42] (by decide)).2.2.1⟩

theorem peeledKeySizes_head (n : Nat) (buf : ByteVector) (cur : Nat) :
    (peeledKeySizes (n + 1) buf cur).head? = some ((buf.getD (cur - 1) 0).val &&& 0xF) := by
  rw [peeledKeySizes]
  rfl

theorem peelLayer_eq (buf : ByteVector) (cur : Nat) (hpos : 0 < cur) (hcur : cur ≤ buf.length) :
    peelLayer buf cur = (do
      let r ← readKeyLoop buf ((buf.getD (cur - 1) 0).val &&& 0xF)
        ((buf.getD (cur - 1) 0).val &&& 0xF) 0
        (List.replicate ((buf.getD (cur - 1) 0).val &&& 0xF) 0) (cur - 1)
      let mid ← xorLoop r.1 ((buf.getD (cur - 1) 0).val &&& 0xF) r.2 0 buf
      pure (mid, r.2)) := by
  unfold peelLayer
  simp only [bind, Except.bind, pure, Except.pure, decr_pos cur hpos,
    getByte_eq_ok buf (cur - 1) (by omega)]

/-- C17: the layer count is the low nibble of the last byte of the working
buffer, and the first layer is peeled with that same number as its key size: on
every buffer that passes the size-header check, has a non-empty working buffer
and a layer count `L >= 1`, the decoder reads an `L`-byte key below the last byte
and XORs with it modulo `L`, then runs the remaining `L - 1` layers; the first
key size peeled is `L`, never 0, and when the decoder returns, `L` layers have
been peeled. -/
theorem first_key_size_eq_layer_count (inBuffer : ByteVector) (raw : Nat)
    (hraw : readU32 inBuffer 0 = .ok raw)
    (hsize : raw ^^^ fileSizeXorKey = inBuffer.length % 2 ^ 32)
    (hwork : inBuffer.drop 4 ≠ [])
    (hL : 1 ≤ numEncryptionLayers (inBuffer.drop 4)) :
    (peeledKeySizes (numEncryptionLayers (inBuffer.drop 4)) (inBuffer.drop 4)
        (inBuffer.drop 4).length).head? = some (numEncryptionLayers (inBuffer.drop 4)) ∧
    decryptBoardSet inBuffer = (do
      let r ← readKeyLoop (inBuffer.drop 4) (numEncryptionLayers (inBuffer.drop 4))
        (numEncryptionLayers (inBuffer.drop 4)) 0
        (List.replicate (numEncryptionLayers (inBuffer.drop 4)) 0)
        ((inBuffer.drop 4).length - 1)
      let mid ← xorLoop r.1 (numEncryptionLayers (inBuffer.drop 4)) r.2 0 (inBuffer.drop 4)
      let fin ← layerLoop (numEncryptionLayers (inBuffer.drop 4) - 1) mid r.2
      pure (fin.1.take fin.2)) ∧
    (∀ out, decryptBoardSet inBuffer = .ok out →
      (peeledKeySizes (numEncryptionLayers (inBuffer.drop 4)) (inBuffer.drop 4)
        (inBuffer.drop 4).length).length = numEncryptionLayers (inBuffer.drop 4)) := by
  have hpos : 0 < (inBuffer.drop 4).length := List.length_pos.mpr hwork
  obtain ⟨n, hn⟩ : ∃ n, numEncryptionLayers (inBuffer.drop 4) = n + 1 :=
    ⟨numEncryptionLayers (inBuffer.drop 4) - 1, by omega⟩
  have hnib : (List.getD (inBuffer.drop 4) ((inBuffer.drop 4).length - 1) 0).val &&& 0xF
      = n + 1 := hn
  refine ⟨?_, ?_, fun out h => (peeledKeySizes_length_of_ok inBuffer out h)⟩
  · rw [hn, peeledKeySizes_head, hnib]
  · rw [decryptBoardSet_of_match inBuffer raw hraw hsize, hn]
    simp only [bind, Except.bind, pure, Except.pure, decr_pos _ hpos,
      getByte_eq_ok (inBuffer.drop 4) ((inBuffer.drop 4).length - 1) (by omega), hnib,
      Nat.add_sub_cancel]
    rw [layerLoop]
    simp only [bind, Except.bind, peelLayer_eq (inBuffer.drop 4) _ hpos (le_refl _), hnib,
      pure, Except.pure]
    cases readKeyLoop (inBuffer.drop 4) (n + 1) (n + 1) 0 (List.replicate (n + 1) 0)
        ((inBuffer.drop 4).length - 1) with
    | error e => rfl
    | ok r =>
        simp only []
        cases xorLoop r.1 (n + 1) r.2 0 (inBuffer.drop 4) with
        | error e => rfl
        | ok mid => rfl
/-- C17 at a concrete input: the 11-byte buffer with two layers, whose last byte
`32` gives the layer count 2 and the first key size 2. -/
theorem first_key_size_eq_layer_count_witness :
    numEncryptionLayers (exampleTwoLayers.drop 4) = 2 ∧
    (peeledKeySizes (numEncryptionLayers (exampleTwoLayers.drop 4))
        (exampleTwoLayers.drop 4) (exampleTwoLayers.drop 4).length).head?
      = some (numEncryptionLayers (exampleTwoLayers.drop 4)) :=
  ⟨by decide, (first_key_size_eq_layer_count exampleTwoLayers 0xABBAFADE (by decide)
    (by decide) (by decide) (by decide)).1⟩

/-- C15, as amended: for every layer peeled with key size `s >= 1` whose size
byte and key bytes lie below the cursor, the key used for the XOR pass is the
key segment in file order: the byte at the lowest offset of the key segment is
key index 0 and the byte at the highest offset (the one immediately before the
key-size byte, read first by the decoder) is key index `s - 1`; every byte
`work[p]` below the new cursor is XORed with key index `p % s`, so `work[0]` is
XORed with key index 0. -/
theorem peelLayer_key_order (buf : ByteVector) (cur s : Nat) (hcur : cur ≤ buf.length)
    (hs : (buf.getD (cur - 1) 0).val &&& 0xF = s) (hpos : 1 ≤ s) (hfit : s + 1 ≤ cur) :
    ∃ key out,
      readKeyLoop buf s s 0 (List.replicate s 0) (cur - 1) = .ok (key, cur - 1 - s) ∧
      key.length = s ∧
      (∀ q, q < s → key[q]? = buf[cur - 1 - s + q]?) ∧
      xorLoop key s (cur - 1 - s) 0 buf = .ok out ∧
      peelLayer buf cur = .ok (out, cur - 1 - s) ∧
      (∀ p, p < cur - 1 - s → out[p]? = (buf[p]?).map (fun b => b ^^^ key.getD (p % s) 0)) := by
  obtain ⟨key, hkrun, hklen, hkget⟩ :=
    readKeyLoop_spec buf s s 0 (cur - 1) (List.replicate s 0)
      (by omega) (by omega) (by omega) (List.length_replicate _ _)
  obtain ⟨out, hxrun, _, hxget⟩ :=
    xorLoop_spec key s hklen hpos (cur - 1 - s) 0 buf (by omega)
  refine ⟨key, out, hkrun, hklen, fun q hq => ?_, hxrun, ?_, fun p hp => ?_⟩
  · have e : cur - 1 + 0 + q - s = cur - 1 - s + q := by omega
    rw [hkget q, if_pos (by omega), e]
  · rw [peelLayer_eq buf cur (by omega) hcur, hs]
    simp only [bind, Except.bind, pure, Except.pure, hkrun, hxrun]
  · rw [hxget p, if_pos (by omega)]

/-- C15 at a concrete input: the working buffer of the 11-byte example, cursor 7,
key size 2. -/
theorem peelLayer_key_order_witness :
    ∃ key out,
      readKeyLoop (exampleTwoLayers.drop 4) 2 2 0 (List.replicate 2 0) (7 - 1)
        = .ok (key, 7 - 1 - 2) ∧
      key.length = 2 ∧
      (∀ q, q < 2 → key[q]? = (exampleTwoLayers.drop 4)[7 - 1 - 2 + q]?) ∧
      xorLoop key 2 (7 - 1 - 2) 0 (exampleTwoLayers.drop 4) = .ok out ∧
      peelLayer (exampleTwoLayers.drop 4) 7 = .ok (out, 7 - 1 - 2) ∧
      (∀ p, p < 7 - 1 - 2 →
        out[p]? = ((exampleTwoLayers.drop 4)[p]?).map (fun b => b ^^^ key.getD (p % 2) 0)) :=
  peelLayer_key_order (exampleTwoLayers.drop 4) 7 2 (by decide) (by decide) (by decide)
    (by decide)

/-- C15 fails as stated: in the working buffer `F4 E2 B0 B1 A0 B0 32` the key
segment is `A0 B0`; the decoder reads `B0` (highest offset) first, yet stores it
at key index 1, and key index 0 is `A0` (lowest offset); `work[0] = F4` is XORed
with `A0`, giving `54`, not with `B0`. -/
theorem peelLayer_key_order_counterexample :
    readKeyLoop [0xF4, 0xE2, 0xB0, 0xB1, 0xA0, 0xB0, 0x32] 2 2 0 [0, 0] 6
      = .ok ([0xA0, 0xB0], 4) ∧
    peelLayer [0xF4, 0xE2, 0xB0, 0xB1, 0xA0, 0xB0, 0x32] 7
      = .ok ([0x54, 0x52, 0x10, 0x01, 0xA0, 0xB0, 0x32], 4) ∧
    (0xF4 : Byte) ^^^ 0xA0 = 0x54 ∧ (0xF4 : Byte) ^^^ 0xB0 ≠ 0x54 := by
  refine ⟨by decide, by decide, by decide, by decide⟩

/-- C18: for every plaintext `P`, every `k` with `1 <= k <= 15` and every
sequence of `k` layers with keys of 1 to 15 bytes, each followed by a byte whose
low nibble is its key size, where the key of the last layer has exactly `k`
bytes: with `W` the layers applied in order to `P` and `E` the 4-byte
little-endian value of `(length W + 4) XOR 0xABBAFAD5` followed by `W`, of length
below `2 ^ 32`, `decryptBoardSet E` returns exactly `P`; no access outside the
buffer occurs, since it would be reported as a fault. -/
theorem decryptBoardSet_restricted_round_trip (P : ByteVector) (k : Nat)
    (layers : List Layer) (hk1 : 1 ≤ k) (hk15 : k ≤ 15) (hlen : layers.length = k)
    (hwf : ∀ l ∈ layers, l.wellFormed)
    (hlast : ∀ l, layers.getLast? = some l → l.key.length = k)
    (_hsize : (encodeLayers P layers).length + 4 < 2 ^ 32) :
    decryptBoardSet
      (le32 (((encodeLayers P layers).length + 4) ^^^ 0xABBAFAD5) ++ encodeLayers P layers)
      = .ok P := by
  have hne : layers ≠ [] := by
    intro h
    rw [h] at hlen
    simp at hlen
    omega
  have hsplit := List.dropLast_append_getLast hne
  have hk : (layers.getLast hne).key.length = k :=
    hlast _ (List.getLast?_eq_getLast layers hne)
  have h := decryptBoardSet_encoded P layers.dropLast (layers.getLast hne)
    (by rw [hsplit]; exact hwf) (by rw [hsplit, hk, hlen])
  rw [hsplit] at h
  exact h

/-- C18 at a concrete input: the plaintext `44 42` under the 1-byte key `10` and
then the 2-byte key `A0 B0`, whose size byte is `32`. -/
theorem decryptBoardSet_restricted_round_trip_witness :
    decryptBoardSet
      (le32 (((encodeLayers [0x44, 0x42]
          [⟨[0x10], 0x01⟩, ⟨[0xA0, 0xB0], 0x32⟩]).length + 4) ^^^ 0xABBAFAD5)
        ++ encodeLayers [0x44, 0x42] [⟨[0x10], 0x01⟩, ⟨[0xA0, 0xB0], 0x32⟩])
      = .ok [0x44, 0x42] :=
  decryptBoardSet_restricted_round_trip [0x44, 0x42] 2
    [⟨[0x10], 0x01⟩, ⟨[0xA0, 0xB0], 0x32⟩] (by decide) (by decide) (by decide) (by decide)
    (by intro l h; cases h; decide) (by decide)
theorem readU32_append_left (pre rest : ByteVector) :
    readU32 (pre ++ rest) pre.length = readU32 rest 0 := by
  unfold readU32
  rw [List.drop_left, List.drop_zero]

theorem readU32_le32 (x : Nat) : readU32 (le32 x) 0 = .ok (x % 2 ^ 32) := by
  have h := readU32_le32_append x []
  rw [List.append_nil] at h
  exact h

theorem restamp_length (B : ByteVector) (h4 : 4 ≤ B.length) :
    (restamp B).length = B.length := by
  unfold restamp
  rw [List.length_append, List.length_take, le32_length]
  omega

theorem restamp_take (B : ByteVector) (h4 : 4 ≤ B.length) :
    (restamp B).take ((restamp B).length - 4) = B.take (B.length - 4) := by
  rw [restamp_length B h4]
  unfold restamp
  apply List.take_left'
  rw [List.length_take]
  omega

theorem restamp_restamp (B : ByteVector) (h4 : 4 ≤ B.length) :
    restamp (restamp B) = restamp B := by
  have h := restamp_take B h4
  show (restamp B).take ((restamp B).length - 4)
    ++ le32 (calculateChecksum ((restamp B).take ((restamp B).length - 4))) = restamp B
  rw [h]
  rfl

theorem readU32_restamp (B : ByteVector) (h4 : 4 ≤ B.length) :
    readU32 (restamp B) ((restamp B).length - 4)
      = .ok (calculateChecksum ((restamp B).take ((restamp B).length - 4))) := by
  rw [restamp_take B h4, restamp_length B h4]
  have hl : (B.take (B.length - 4)).length = B.length - 4 := by
    rw [List.length_take]; omega
  have h := readU32_append_left (B.take (B.length - 4))
    (le32 (calculateChecksum (B.take (B.length - 4))))
  rw [hl] at h
  show readU32 (B.take (B.length - 4) ++ le32 (calculateChecksum (B.take (B.length - 4))))
    (B.length - 4) = _
  rw [h, readU32_le32, Nat.mod_eq_of_lt (calculateChecksum_lt _)]

theorem readU32_drop (v : ByteVector) (off : Nat) : readU32 v off = readU32 (v.drop off) 0 := by
  unfold readU32
  rw [List.drop_zero]

theorem readU32_take_four (a : ByteVector) : readU32 a 0 = readU32 (a.take 4) 0 := by
  rcases a with _ | ⟨a0, _ | ⟨a1, _ | ⟨a2, _ | ⟨a3, rest⟩⟩⟩⟩ <;> rfl

theorem readU32_congr_take (X Y : ByteVector) (m off : Nat) (h : X.take m = Y.take m)
    (hoff : off + 4 ≤ m) : readU32 X off = readU32 Y off := by
  have hXY : X.take (off + 4) = Y.take (off + 4) := by
    have hx : X.take (off + 4) = (X.take m).take (off + 4) := by
      rw [List.take_take, Nat.min_eq_left hoff]
    have hy : Y.take (off + 4) = (Y.take m).take (off + 4) := by
      rw [List.take_take, Nat.min_eq_left hoff]
    rw [hx, hy, h]
  have key : ∀ Z : ByteVector, (Z.drop off).take 4 = (Z.take (off + 4)).drop off := by
    intro Z
    rw [List.drop_take, Nat.add_sub_cancel_left]
  rw [readU32_drop X, readU32_drop Y, readU32_take_four (X.drop off),
    readU32_take_four (Y.drop off), key X, key Y, hXY]

theorem readU32_ok_length (v : ByteVector) (off x : Nat) (h : readU32 v off = .ok x) :
    off + 4 ≤ v.length := by
  by_contra hlt
  have hl : (v.drop off).length < 4 := by rw [List.length_drop]; omega
  unfold readU32 at h
  rcases hd : v.drop off with _ | ⟨a0, _ | ⟨a1, _ | ⟨a2, _ | ⟨a3, rest⟩⟩⟩⟩
  · rw [hd] at h; cases h
  · rw [hd] at h; cases h
  · rw [hd] at h; cases h
  · rw [hd] at h; cases h
  · rw [hd] at hl
    simp only [List.length_cons] at hl
    omega

theorem passwordStep_ok_inv (input : String) (buf B : ByteVector)
    (h : passwordStep input buf = .ok B) :
    ∃ N, readU32 buf passwordSizeOffset = .ok N ∧ 0x18 + N ≤ buf.length ∧
      B = if 0 < N ∧ input = "y"
        then buf.take 0x14 ++ [0, 0, 0, 0] ++ buf.drop (0x18 + N) else buf := by
  cases hN : readU32 buf passwordSizeOffset with
  | error e =>
      unfold passwordStep at h
      simp only [bind, Except.bind, hN] at h
      cases h
  | ok N =>
      have hlen := readU32_ok_length buf passwordSizeOffset N hN
      simp only [passwordSizeOffset] at hlen
      have hfit : 0x18 + N ≤ buf.length := by
        by_contra hbig
        have hpos : 0 < N := by omega
        unfold passwordStep at h
        simp only [bind, Except.bind, hN, pure, Except.pure] at h
        rw [if_pos hpos, if_pos (by simp only [passwordSizeOffset]; omega)] at h
        cases h
      refine ⟨N, rfl, hfit, ?_⟩
      rw [passwordStep_of_size input buf N hN hfit] at h
      by_cases hc : 0 < N ∧ input = "y"
      · rw [if_pos hc] at h ⊢
        exact (Except.ok.inj h).symm
      · rw [if_neg hc] at h ⊢
        exact (Except.ok.inj h).symm

theorem readU32_spliced (buf : ByteVector) (N : Nat) (hfit : 0x18 + N ≤ buf.length) :
    readU32 (buf.take 0x14 ++ [0, 0, 0, 0] ++ buf.drop (0x18 + N)) passwordSizeOffset
      = .ok 0 := by
  have hl : (buf.take 0x14).length = passwordSizeOffset := by
    rw [List.length_take]; simp only [passwordSizeOffset]; omega
  unfold readU32
  rw [List.append_assoc, List.drop_left' hl]
  rfl

theorem passwordStep_output_field (input : String) (buf B : ByteVector) (v : Nat)
    (hv : readU32 buf versionNumberOffset = .ok v) (h : passwordStep input buf = .ok B) :
    readU32 B versionNumberOffset = .ok v ∧
    ∃ N, readU32 B passwordSizeOffset = .ok N ∧ 0x18 + N ≤ B.length := by
  obtain ⟨N, hN, hfit, hB⟩ := passwordStep_ok_inv input buf B h
  by_cases hc : 0 < N ∧ input = "y"
  · rw [if_pos hc] at hB
    subst hB
    refine ⟨?_, 0, readU32_spliced buf N hfit, ?_⟩
    · rw [← hv]
      apply readU32_congr_take _ _ 0x14 versionNumberOffset _ (by decide)
      rw [List.append_assoc, List.take_left' (by rw [List.length_take]; omega)]
    · simp only [List.length_append, List.length_take, List.length_cons, List.length_nil]
      omega
  · rw [if_neg hc] at hB
    subst hB
    exact ⟨hv, N, hN, hfit⟩

/-- C19, as amended: for every buffer `B` of length at least 4 the checksum block
of the orchestrator yields `restamp B`; `restamp (restamp B) = restamp B`; on
`restamp B` the checksum read from the last 4 bytes equals the newly calculated
one, so the comparison `newChecksum != checksum` is false and the checksum block
leaves `restamp B` as it is.  When `restamp B` has version 6 or 7 and a password
length field `N` with `0x18 + N <= length` and the bypass is not taken, the
orchestrator returns `restamp B` unchanged; this is the case for every file of
at least 28 bytes that the orchestrator produces from a version 6 or 7 buffer,
when it is processed again with an answer other than `y`. -/
theorem restamp_idempotent (B : ByteVector) (h4 : 4 ≤ B.length) :
    restampChecksum B = .ok (restamp B) ∧
    restamp (restamp B) = restamp B ∧
    readU32 (restamp B) ((restamp B).length - 4)
      = .ok (calculateChecksum ((restamp B).take ((restamp B).length - 4))) ∧
    restampChecksum (restamp B) = .ok (restamp B) ∧
    (∀ (input : String) (v N : Nat),
      readU32 (restamp B) versionNumberOffset = .ok v → (v = 6 ∨ v = 7) →
      readU32 (restamp B) passwordSizeOffset = .ok N → 0x18 + N ≤ (restamp B).length →
      (input ≠ "y" ∨ N = 0) →
      processBoardSet input (restamp B) = .ok (restamp B)) ∧
    (∀ (input again : String) (buf : ByteVector) (v : Nat),
      readU32 buf versionNumberOffset = .ok v → (v = 6 ∨ v = 7) →
      passwordStep input buf = .ok B → 28 ≤ B.length → again ≠ "y" →
      processBoardSet input buf = .ok (restamp B) ∧
      processBoardSet again (restamp B) = .ok (restamp B)) := by
  have h4r : 4 ≤ (restamp B).length := by rw [restamp_length B h4]; exact h4
  have hagain : restampChecksum (restamp B) = .ok (restamp B) := by
    have h := restampChecksum_eq (restamp B) h4r
    rw [h]
    exact congrArg Except.ok (restamp_restamp B h4)
  have hcond : ∀ (input : String) (v N : Nat),
      readU32 (restamp B) versionNumberOffset = .ok v → (v = 6 ∨ v = 7) →
      readU32 (restamp B) passwordSizeOffset = .ok N → 0x18 + N ≤ (restamp B).length →
      (input ≠ "y" ∨ N = 0) →
      processBoardSet input (restamp B) = .ok (restamp B) := by
    intro input v N hv h67 hN hfit hno
    have hstep : passwordStep input (restamp B) = .ok (restamp B) := by
      rw [passwordStep_of_size input (restamp B) N hN hfit, if_neg]
      rintro ⟨hpos, hy⟩
      rcases hno with h | h
      · exact h hy
      · omega
    rw [processBoardSet_of_version input (restamp B) v hv h67, hstep]
    exact hagain
  refine ⟨restampChecksum_eq B h4, restamp_restamp B h4, readU32_restamp B h4, hagain, hcond,
    fun input again buf v hv h67 hB h28 hno => ⟨?_, ?_⟩⟩
  · rw [processBoardSet_of_version input buf v hv h67, hB]
    exact restampChecksum_eq B h4
  · obtain ⟨hvB, N, hNB, hfitB⟩ := passwordStep_output_field input buf B v hv hB
    have htake : (restamp B).take (B.length - 4) = B.take (B.length - 4) := by
      have h := restamp_take B h4
      rw [restamp_length B h4] at h
      exact h
    have hvR : readU32 (restamp B) versionNumberOffset = .ok v := by
      rw [← hvB]
      exact readU32_congr_take _ _ (B.length - 4) versionNumberOffset htake
        (by simp only [versionNumberOffset]; omega)
    have hNR : readU32 (restamp B) passwordSizeOffset = .ok N := by
      rw [← hNB]
      exact readU32_congr_take _ _ (B.length - 4) passwordSizeOffset htake
        (by simp only [passwordSizeOffset]; omega)
    exact hcond again v N hvR h67 hNR (by rw [restamp_length B h4]; exact hfitB) (Or.inl hno)

/-- C19 at a concrete input: the 28-byte version 6 board set without password,
answer `n` on both runs. -/
theorem restamp_idempotent_witness :
    restampChecksum exampleOpen = .ok (restamp exampleOpen) ∧
    restamp (restamp exampleOpen) = restamp exampleOpen ∧
    (processBoardSet "n" exampleOpen = .ok (restamp exampleOpen) ∧
      processBoardSet "n" (restamp exampleOpen) = .ok (restamp exampleOpen)) :=
  ⟨(restamp_idempotent exampleOpen (by decide)).1,
   (restamp_idempotent exampleOpen (by decide)).2.1,
   (restamp_idempotent exampleOpen (by decide)).2.2.2.2.2 "n" "n" exampleOpen 6 (by decide)
     (by decide) (by decide) (by decide) (by decide)⟩

/-- C19 fails as stated: from the 24-byte version 6 buffer without password the
orchestrator produces a file whose checksum field lies over the password length
field at `0x14`; processed again with the answer `n`, that file is taken as
password protected with a password of `0x5A746ED3` bytes, the password bytes are
read outside the buffer, and nothing is written back. -/
theorem restamp_short_file_counterexample :
    processBoardSet "n"
      [0x42, 0x44, 0x53, 0x54, 6, 0, 0, 0, 1, 2, 3, 4, 5, 6, 7, 8, 9, 10, 11, 12, 0, 0, 0, 0]
      = .ok [0x42, 0x44, 0x53, 0x54, 6, 0, 0, 0, 1, 2, 3, 4, 5, 6, 7, 8, 9, 10, 11, 12,
          0xD3, 0x6E, 0x74, 0x5A] ∧
    readU32 [0x42, 0x44, 0x53, 0x54, 6, 0, 0, 0, 1, 2, 3, 4, 5, 6, 7, 8, 9, 10, 11, 12,
      0xD3, 0x6E, 0x74, 0x5A] versionNumberOffset = .ok 6 ∧
    readU32 [0x42, 0x44, 0x53, 0x54, 6, 0, 0, 0, 1, 2, 3, 4, 5, 6, 7, 8, 9, 10, 11, 12,
      0xD3, 0x6E, 0x74, 0x5A] passwordSizeOffset = .ok 0x5A746ED3 ∧
    processBoardSet "n"
      [0x42, 0x44, 0x53, 0x54, 6, 0, 0, 0, 1, 2, 3, 4, 5, 6, 7, 8, 9, 10, 11, 12,
        0xD3, 0x6E, 0x74, 0x5A] = .error .outOfRange := by
  refine ⟨by decide, by decide, by decide, by decide⟩

theorem findLastOf_lt (s : List Char) (c : Char) (i : Nat) (h : findLastOf s c = some i) :
    i < s.length := by
  induction s generalizing i with
  | nil => cases h
  | cons x rest ih =>
      rw [findLastOf] at h
      cases hr : findLastOf rest c with
      | some j =>
          rw [hr] at h
          have := ih j hr
          have e : j + 1 = i := Option.some.inj h
          rw [List.length_cons]
          omega
      | none =>
          rw [hr] at h
          by_cases hx : x = c
          · rw [if_pos hx] at h
            have e : 0 = i := Option.some.inj h
            rw [List.length_cons]
            omega
          · rw [if_neg hx] at h
            cases h

theorem outFileName_length (inFileName : List Char) :
    (outFileName inFileName).length = inFileName.length + 4 ∨
    (outFileName inFileName).length = inFileName.length + 8 := by
  unfold outFileName
  cases h : findLastOf inFileName '.' with
  | some pos =>
      left
      have hlt := findLastOf_lt inFileName '.' pos h
      have h4 : (".new".toList).length = 4 := by decide
      simp only [List.length_append, List.length_take, List.length_drop, h4]
      omega
  | none =>
      right
      have h8 : (".new.bdz".toList).length = 8 := by decide
      simp only [List.length_append, h8]

theorem outFileName_ne (inFileName : List Char) : outFileName inFileName ≠ inFileName := by
  intro h
  have hl := outFileName_length inFileName
  rw [h] at hl
  omega

/-- C20 on the code: the search for the last `.` runs over the whole path, not
over the file name.  For `./boards/myset` and `boards.v2/myset`, whose file name
`myset` has no extension, `.new` is inserted before a `.` of the directory part
and the output lies in another directory, while the same file name without a
directory, `myset`, gets `.new.bdz` appended.  For `myset.bdz` the infix comes
before the extension.  In every case the output differs from the input. -/
theorem outFileName_dot_in_directory :
    outFileName "./boards/myset".toList = ".new./boards/myset".toList ∧
    outFileName "boards.v2/myset".toList = "boards.new.v2/myset".toList ∧
    fileNameOf "boards.v2/myset".toList = "myset".toList ∧
    fileNameOf "boards.new.v2/myset".toList = "myset".toList ∧
    outFileName "myset".toList = "myset.new.bdz".toList ∧
    outFileName "myset.bdz".toList = "myset.new.bdz".toList ∧
    ∀ inFileName, outFileName inFileName ≠ inFileName := by
  refine ⟨by decide, by decide, by decide, by decide, by decide, by decide, outFileName_ne⟩

end DXBall
